import Mathlib

/-!
Verification of the zp7 PEXT/PDEP polyfill (zp7.c).

Machine words (C `uint64_t`) are embedded as `Nat` together with explicit
reduction `% 2 ^ 64` at every operation that can overflow in C
(left shifts, addition, subtraction, multiplication).  Bitwise operations
on `Nat` agree with the C operations on values below `2 ^ 64`.
-/

namespace ZP7

/-- C unary complement `~x` on `uint64_t`, for `x < 2 ^ 64`. -/
def comp64 (x : Nat) : Nat := x ^^^ (2 ^ 64 - 1)

/-- C subtraction `a - b` on `uint64_t`, for `a b < 2 ^ 64` (wraps around). -/
def sub64 (a b : Nat) : Nat := (2 ^ 64 + a - b) % 2 ^ 64

/-- Variable-amount 64-bit left shift with the x86 semantics the source
relies on: the shift amount is taken modulo 64 (`1ULL << 64` gives `1`). -/
def shl64 (x s : Nat) : Nat := (x <<< (s % 64)) % 2 ^ 64

/-- One step `x ^= x << s` of the parallel-prefix XOR, on `uint64_t`. -/
def psStep (s x : Nat) : Nat := x ^^^ ((x <<< s) % 2 ^ 64)

/-- Source `prefix_sum` (the non-CLMUL build): the loop
`for i in 0..5: x ^= x << (1 << i)` unrolled. -/
def prefix_sum (x : Nat) : Nat :=
  psStep 32 (psStep 16 (psStep 8 (psStep 4 (psStep 2 (psStep 1 x)))))

/-- Source struct `zp7_masks_64_t`: the mask plus the six PPP bit planes.
The C array `ppp_bit[6]` is embedded as a function; only indices `0..5`
are ever accessed by the code. -/
structure zp7_masks_64_t where
  mask : Nat
  ppp_bit : Nat → Nat

/-- One PPP plane from the current carry word: `prefix_sum(u) << 1`,
reduced to 64 bits. -/
def ppp_plane (u : Nat) : Nat := (prefix_sum u <<< 1) % 2 ^ 64

/-- The carry word of `zp7_ppp_64` after `i` loop iterations
(source: `mask &= bit` at the end of each iteration). -/
def pppCarry (u : Nat) : Nat → Nat
  | 0 => u
  | i + 1 => pppCarry u i &&& ppp_plane (pppCarry u i)

/-- Source `zp7_ppp_64` (the non-CLMUL build): store the mask, complement
it, and produce the six planes `ppp_bit[i] = prefix_sum(u_i) << 1` where
`u_0 = ~mask` and `u_{i+1} = u_i & ppp_bit[i]`. -/
def zp7_ppp_64 (mask : Nat) : zp7_masks_64_t :=
  { mask := mask, ppp_bit := fun i => ppp_plane (pppCarry (comp64 mask) i) }

/-- One iteration of the PEXT loop:
`a = (a & ~bit) | ((a & bit) >> (1 << i))`. -/
def pextStep (masks : zp7_masks_64_t) (i a : Nat) : Nat :=
  (a &&& comp64 (masks.ppp_bit i)) ||| ((a &&& masks.ppp_bit i) >>> (1 <<< i))

/-- State of the PEXT loop after `k` iterations, starting from the
pre-masked input `a & masks.mask`. -/
def pextIter (masks : zp7_masks_64_t) (a : Nat) : Nat → Nat
  | 0 => a &&& masks.mask
  | k + 1 => pextStep masks k (pextIter masks a k)

/-- Source `zp7_pext_pre_64`: pre-mask, then the six shift steps in
ascending order. -/
def zp7_pext_pre_64 (a : Nat) (masks : zp7_masks_64_t) : Nat :=
  pextIter masks a 6

/-- Source `zp7_pext_64`. -/
def zp7_pext_64 (a mask : Nat) : Nat :=
  zp7_pext_pre_64 a (zp7_ppp_64 mask)

/-- First assignment of source `popcnt_64`:
`x = x - ((x >> 1) & m_1)` on `uint64_t`. -/
def popcnt64_s1 (x : Nat) : Nat := sub64 x (x >>> 1 &&& 0x5555555555555555)

/-- Second assignment of source `popcnt_64`:
`x = (x & m_2) + ((x >> 2) & m_2)` on `uint64_t`. -/
def popcnt64_s2 (x : Nat) : Nat :=
  ((x &&& 0x3333333333333333) + (x >>> 2 &&& 0x3333333333333333)) % 2 ^ 64

/-- Third assignment of source `popcnt_64`:
`x = (x + (x >> 4)) & m_4` on `uint64_t`. -/
def popcnt64_s3 (x : Nat) : Nat :=
  ((x + x >>> 4) % 2 ^ 64) &&& 0x0f0f0f0f0f0f0f0f

/-- Source `popcnt_64`, the SWAR population-count fallback: the three
masking steps followed by `(x * 0x0101010101010101) >> 56`, with every
C operation that can wrap reduced modulo `2 ^ 64`. -/
def popcnt_64 (x : Nat) : Nat :=
  ((popcnt64_s3 (popcnt64_s2 (popcnt64_s1 x)) * 0x0101010101010101) % 2 ^ 64) >>> 56

/-- One iteration of the PDEP loop:
`a = (a & ~bit) + ((a & bit) << (1 << i))` with `bit = ppp_bit[i] >> (1 << i)`. -/
def pdepStep (masks : zp7_masks_64_t) (i a : Nat) : Nat :=
  let bit := masks.ppp_bit i >>> (1 <<< i)
  ((a &&& comp64 bit) + (((a &&& bit) <<< (1 <<< i)) % 2 ^ 64)) % 2 ^ 64

/-- State of the PDEP loop after `k` iterations; iteration `k` processes
plane index `5 - k`, so the planes are visited in descending order. -/
def pdepIter (masks : zp7_masks_64_t) (a : Nat) : Nat → Nat
  | 0 => a
  | k + 1 => pdepStep masks (5 - k) (pdepIter masks a k)

/-- The pre-masking step of `zp7_pdep_pre_64` (the portable, non-BZHI
build): `a & (((1 << popcnt) & ~(popcnt >> 6)) - 1)`. -/
def pdepPreMask (a popcnt : Nat) : Nat :=
  a &&& sub64 (shl64 1 popcnt &&& comp64 (popcnt >>> 6)) 1

/-- Source `zp7_pdep_pre_64` (portable build): population count of the
mask, pre-masking to the low `popcnt` bits, then the six shift steps in
descending order. -/
def zp7_pdep_pre_64 (a : Nat) (masks : zp7_masks_64_t) : Nat :=
  pdepIter masks (pdepPreMask a (popcnt_64 masks.mask)) 6

/-- Source `zp7_pdep_64`. -/
def zp7_pdep_64 (a mask : Nat) : Nat :=
  zp7_pdep_pre_64 a (zp7_ppp_64 mask)

/-- Modelled from the spec: carry-less (GF(2) polynomial) multiplication,
the semantics of the hardware CLMUL instruction used by the HAS_CLMUL
build.  `clmulAux x y j` accumulates `XOR` of `x <<< t` over the set bits
`t < j` of the multiplicand `y`. -/
def clmulAux (x y : Nat) : Nat → Nat
  | 0 => 0
  | j + 1 => clmulAux x y j ^^^ (if y.testBit j then x <<< j else 0)

/-- Low 64 bits of the carry-less 64-by-64 product. -/
def clmul_low64 (x y : Nat) : Nat := clmulAux x y 64 % 2 ^ 64

/-- Carry word of the HAS_CLMUL build of `zp7_ppp_64` after `i`
iterations: the plane is computed as `clmul(m, -2)` in one step. -/
def pppCarryClmul (u : Nat) : Nat → Nat
  | 0 => u
  | i + 1 => pppCarryClmul u i &&& clmul_low64 (pppCarryClmul u i) (2 ^ 64 - 2)

/-- Source `zp7_ppp_64`, HAS_CLMUL build: each plane is the low half of a
carry-less multiply of the carry word by the bit pattern of `-2`. -/
def zp7_ppp_64_clmul (mask : Nat) : zp7_masks_64_t :=
  { mask := mask,
    ppp_bit := fun i => clmul_low64 (pppCarryClmul (comp64 mask) i) (2 ^ 64 - 2) }

/-- Number of set bits of a natural number (specification population
count). -/
def bitCount : Nat → Nat
  | 0 => 0
  | n + 1 => (n + 1) % 2 + bitCount ((n + 1) / 2)

/-- Number of positions `j < b` at which `m` has a set bit. -/
def setBelow (m : Nat) : Nat → Nat
  | 0 => 0
  | b + 1 => setBelow m b + (if m.testBit b then 1 else 0)

/-- Number of positions `j < b` at which `m` has a clear bit. -/
def unsetBelow (m : Nat) : Nat → Nat
  | 0 => 0
  | b + 1 => unsetBelow m b + (if m.testBit b then 0 else 1)

/-- Parity (as a `Bool`) of the number of set bits of `x` below
position `b`. -/
def parBelow (x : Nat) : Nat → Bool
  | 0 => false
  | b + 1 => (parBelow x b).xor (x.testBit b)

/-- Reference PEXT (bit gather) over the low 64 bits: the bits of `a` at
positions where `mask` is set, repacked contiguously from bit 0 upward,
preserving the mask's bit order.  `pextRefAux a mask n` handles mask
positions below `n`. -/
def pextRefAux (a mask : Nat) : Nat → Nat
  | 0 => 0
  | b + 1 =>
    pextRefAux a mask b +
      (if mask.testBit b && a.testBit b then 2 ^ setBelow mask b else 0)

/-- Reference PEXT result for 64-bit operands. -/
def pextRef (a mask : Nat) : Nat := pextRefAux a mask 64

/-- Reference PDEP (bit scatter) over the low 64 bits: the low
`popcount mask` bits of `a` distributed, in order, into the set positions
of `mask`; all other output bits are zero. -/
def pdepRefAux (a mask : Nat) : Nat → Nat
  | 0 => 0
  | b + 1 =>
    pdepRefAux a mask b +
      (if mask.testBit b && a.testBit (setBelow mask b) then 2 ^ b else 0)

/-- Reference PDEP result for 64-bit operands. -/
def pdepRef (a mask : Nat) : Nat := pdepRefAux a mask 64

/-! Generic lemmas about bits of natural numbers. -/

lemma testBit_false_of_lt {x j : Nat} (hx : x < 2 ^ 64) (hj : 64 ≤ j) :
    x.testBit j = false :=
  Nat.testBit_lt_two_pow (lt_of_lt_of_le hx (Nat.pow_le_pow_right (by norm_num) hj))

lemma comp64_testBit {x : Nat} (hx : x < 2 ^ 64) (j : Nat) :
    (comp64 x).testBit j = (decide (j < 64) && !x.testBit j) := by
  unfold comp64
  rw [Nat.testBit_xor, Nat.testBit_two_pow_sub_one]
  rcases lt_or_ge j 64 with hj | hj
  · simp [hj, Bool.xor_true]
  · simp [Nat.not_lt.mpr hj, testBit_false_of_lt hx hj]

lemma comp64_lt {x : Nat} (hx : x < 2 ^ 64) : comp64 x < 2 ^ 64 :=
  Nat.xor_lt_two_pow hx (by norm_num)

lemma addLow_testBit {l : Nat} (w h j : Nat) (hl : l < 2 ^ w) :
    (l + 2 ^ w * h).testBit j =
      if j < w then l.testBit j else h.testBit (j - w) := by
  rcases lt_or_ge j w with hj | hj
  · rw [if_pos hj, Nat.testBit_to_div_mod, Nat.testBit_to_div_mod]
    have hsplit : 2 ^ w = 2 ^ j * 2 ^ (w - j) := by
      rw [← pow_add]; congr 1; omega
    have heven : ∃ c, 2 ^ (w - j) = 2 * c := ⟨2 ^ (w - j - 1), by
      rw [← pow_succ']; congr 1; omega⟩
    obtain ⟨c, hc⟩ := heven
    rw [hsplit, Nat.mul_assoc, Nat.add_mul_div_left _ _ (Nat.pos_pow_of_pos j (by norm_num)),
      hc, Nat.mul_assoc, Nat.add_mul_mod_self_left]
  · rw [if_neg (Nat.not_lt.mpr hj), Nat.testBit_to_div_mod, Nat.testBit_to_div_mod]
    have hsplit : 2 ^ j = 2 ^ w * 2 ^ (j - w) := by
      rw [← pow_add]; congr 1; omega
    rw [hsplit, ← Nat.div_div_eq_div_mul,
      Nat.add_mul_div_left _ _ (Nat.pos_pow_of_pos w (by norm_num)),
      Nat.div_eq_of_lt hl, Nat.zero_add]

lemma land_split {l m : Nat} (w h g : Nat) (hl : l < 2 ^ w) (hm : m < 2 ^ w) :
    (l + 2 ^ w * h) &&& (m + 2 ^ w * g) = (l &&& m) + 2 ^ w * (h &&& g) := by
  apply Nat.eq_of_testBit_eq
  intro j
  rw [Nat.testBit_and, addLow_testBit w h j hl, addLow_testBit w g j hm,
    addLow_testBit w (h &&& g) j (Nat.and_lt_two_pow l hm)]
  by_cases hj : j < w <;> simp [hj, Nat.testBit_and]

lemma add_eq_lor_of_and_eq_zero (x : Nat) : ∀ y : Nat, x &&& y = 0 → x + y = x ||| y := by
  induction x using Nat.strong_induction_on with
  | _ x ih =>
    intro y h
    rcases Nat.eq_zero_or_pos x with hx | hx
    · subst hx; simp
    have h0 : ¬(x % 2 = 1 ∧ y % 2 = 1) := by
      intro ⟨ha, hb⟩
      have hb0 := Nat.testBit_and x y 0
      rw [h] at hb0
      simp [Nat.testBit_zero, ha, hb] at hb0
    have hdiv : (x / 2) &&& (y / 2) = 0 := by
      apply Nat.eq_of_testBit_eq; intro i
      rw [Nat.testBit_and, Nat.testBit_div_two, Nat.testBit_div_two, ← Nat.testBit_and, h]
      simp
    have ihd : x / 2 + y / 2 = (x / 2) ||| (y / 2) :=
      ih (x / 2) (Nat.div_lt_self hx (by norm_num)) (y / 2) hdiv
    have hor2 : (x ||| y) / 2 = (x / 2) ||| (y / 2) := by
      apply Nat.eq_of_testBit_eq; intro i
      rw [Nat.testBit_div_two, Nat.testBit_or, Nat.testBit_or,
        Nat.testBit_div_two, Nat.testBit_div_two]
    have hor0 : ((x ||| y) % 2 = 1) ↔ (x % 2 = 1 ∨ y % 2 = 1) := by
      have e1 := Nat.testBit_or x y 0
      simp only [Nat.testBit_zero] at e1
      constructor
      · intro hh
        have : (decide (x % 2 = 1) || decide (y % 2 = 1)) = true := by
          rw [← e1]; simp [hh]
        simpa using this
      · intro hh
        have : (decide ((x ||| y) % 2 = 1)) = true := by
          rw [e1]; rcases hh with hh | hh <;> simp [hh]
        simpa using this
    have hxm := Nat.div_add_mod x 2
    have hym := Nat.div_add_mod y 2
    have hom := Nat.div_add_mod (x ||| y) 2
    omega

lemma disjoint_testBit_of_and_eq_zero {x y : Nat} (h : x &&& y = 0) (j : Nat) :
    ¬(x.testBit j = true ∧ y.testBit j = true) := by
  intro ⟨ha, hb⟩
  have hb0 := Nat.testBit_and x y j
  rw [h] at hb0
  simp [ha, hb] at hb0

/-! Lemmas about the counting functions. -/

lemma setBelow_add_unsetBelow (m : Nat) : ∀ b, setBelow m b + unsetBelow m b = b := by
  intro b
  induction b with
  | zero => rfl
  | succ b ih =>
    unfold setBelow unsetBelow
    cases h : m.testBit b <;> simp [h] <;> omega

lemma unsetBelow_add_le (m a : Nat) : ∀ k, unsetBelow m (a + k) ≤ unsetBelow m a + k ∧
    unsetBelow m a ≤ unsetBelow m (a + k) := by
  intro k
  induction k with
  | zero => simp
  | succ k ih =>
    have : unsetBelow m (a + (k + 1)) = unsetBelow m (a + k) +
        (if m.testBit (a + k) then 0 else 1) := rfl
    cases h : m.testBit (a + k) <;> simp [h] at this <;> omega

lemma unsetBelow_mono (m : Nat) {a b : Nat} (h : a ≤ b) :
    unsetBelow m a ≤ unsetBelow m b := by
  have := unsetBelow_add_le m a (b - a)
  have hab : a + (b - a) = b := by omega
  rw [hab] at this
  exact this.2

lemma unsetBelow_lipschitz (m : Nat) {a b : Nat} (h : a ≤ b) :
    unsetBelow m b ≤ unsetBelow m a + (b - a) := by
  have := unsetBelow_add_le m a (b - a)
  have hab : a + (b - a) = b := by omega
  rw [hab] at this
  exact this.1

lemma unsetBelow_le (m b : Nat) : unsetBelow m b ≤ b := by
  have := unsetBelow_lipschitz m (Nat.zero_le b)
  simpa [unsetBelow] using this

lemma unsetBelow_succ_of_testBit {m b : Nat} (h : m.testBit b = true) :
    unsetBelow m (b + 1) = unsetBelow m b := by
  have : unsetBelow m (b + 1) = unsetBelow m b +
      (if m.testBit b then 0 else 1) := rfl
  rw [this, if_pos h, Nat.add_zero]

lemma setBelow_succ (m b : Nat) :
    setBelow m (b + 1) = setBelow m b + (if m.testBit b then 1 else 0) := rfl

lemma setBelow_add_le (m a : Nat) : ∀ k, setBelow m a ≤ setBelow m (a + k) := by
  intro k
  induction k with
  | zero => simp
  | succ k ih =>
    have : setBelow m (a + (k + 1)) = setBelow m (a + k) +
        (if m.testBit (a + k) then 1 else 0) := rfl
    cases h : m.testBit (a + k) <;> simp [h] at this <;> omega

lemma setBelow_mono (m : Nat) {a b : Nat} (h : a ≤ b) :
    setBelow m a ≤ setBelow m b := by
  have := setBelow_add_le m a (b - a)
  have hab : a + (b - a) = b := by omega
  rwa [hab] at this

lemma setBelow_lt_of_testBit {m b n : Nat} (hb : b < n) (h : m.testBit b = true) :
    setBelow m b < setBelow m n := by
  have h1 : setBelow m (b + 1) = setBelow m b + 1 := by
    rw [setBelow_succ, if_pos h]
  have h2 : setBelow m (b + 1) ≤ setBelow m n := setBelow_mono m (by omega)
  omega

lemma setBelow_surj (m : Nat) : ∀ n q, q < setBelow m n →
    ∃ b, b < n ∧ m.testBit b = true ∧ setBelow m b = q := by
  intro n
  induction n with
  | zero => intro q hq; simp [setBelow] at hq
  | succ n ih =>
    intro q hq
    rcases Nat.lt_or_ge q (setBelow m n) with h | h
    · obtain ⟨b, hb, hbt, hbs⟩ := ih q h
      exact ⟨b, by omega, hbt, hbs⟩
    · rw [setBelow_succ] at hq
      by_cases ht : m.testBit n
      · rw [if_pos ht] at hq
        exact ⟨n, by omega, ht, by omega⟩
      · rw [if_neg ht] at hq; omega

lemma parBelow_eq (x : Nat) : ∀ b, parBelow x b = decide (setBelow x b % 2 = 1) := by
  intro b
  induction b with
  | zero => rfl
  | succ b ih =>
    unfold parBelow
    rw [ih, setBelow_succ]
    cases h : x.testBit b
    · simp
    · simp only [if_pos rfl, Bool.xor_true]
      by_cases hc : setBelow x b % 2 = 1 <;> simp [hc] <;> omega

/-! Lemmas about bitCount. -/

lemma bitCount_eq (x : Nat) : bitCount x = x % 2 + bitCount (x / 2) := by
  cases x with
  | zero => simp [bitCount]
  | succ n => rw [bitCount]

lemma bitCount_split (w : Nat) : ∀ x, bitCount x = bitCount (x % 2 ^ w) + bitCount (x / 2 ^ w) := by
  induction w with
  | zero => intro x; simp [pow_zero, Nat.mod_one, Nat.div_one, bitCount]
  | succ w ih =>
    intro x
    have h1 : x % 2 ^ (w + 1) % 2 = x % 2 := by
      rw [Nat.mod_mod_of_dvd]
      exact ⟨2 ^ w, by rw [pow_succ]; ring⟩
    have h2 : x % 2 ^ (w + 1) / 2 = x / 2 % 2 ^ w := by
      rw [pow_succ']
      exact Nat.mod_mul_right_div_self x 2 (2 ^ w)
    have h3 : x / 2 ^ (w + 1) = x / 2 / 2 ^ w := by
      rw [pow_succ', Nat.div_div_eq_div_mul]
    rw [bitCount_eq x, bitCount_eq (x % 2 ^ (w + 1)), h1, h2, h3, ih (x / 2)]
    omega

lemma bitCount_two_pow_mul_add {l : Nat} (w e : Nat) (hl : l < 2 ^ w) (he : e ≤ 1) :
    bitCount (l + 2 ^ w * e) = bitCount l + e := by
  rw [bitCount_split w (l + 2 ^ w * e)]
  have hmod : (l + 2 ^ w * e) % 2 ^ w = l := by
    rw [Nat.add_mul_mod_self_left, Nat.mod_eq_of_lt hl]
  have hdiv : (l + 2 ^ w * e) / 2 ^ w = e := by
    rw [Nat.add_mul_div_left _ _ (Nat.pos_pow_of_pos w (by norm_num)),
      Nat.div_eq_of_lt hl, Nat.zero_add]
  rw [hmod, hdiv]
  interval_cases e
  · simp [bitCount]
  · simp [bitCount]

lemma setBelow_eq_bitCount_mod (x : Nat) : ∀ b, setBelow x b = bitCount (x % 2 ^ b) := by
  intro b
  induction b with
  | zero => simp [setBelow, pow_zero, Nat.mod_one, bitCount]
  | succ b ih =>
    have hsplit : x % 2 ^ (b + 1) = x % 2 ^ b + 2 ^ b * (x / 2 ^ b % 2) :=
      Nat.mod_pow_succ
    have hbit : (if x.testBit b then 1 else 0) = x / 2 ^ b % 2 := by
      rw [Nat.testBit_to_div_mod]
      by_cases h : x / 2 ^ b % 2 = 1 <;> simp [h] <;> omega
    rw [setBelow_succ, ih, hsplit,
      bitCount_two_pow_mul_add b (x / 2 ^ b % 2) (Nat.mod_lt _ (Nat.pos_pow_of_pos b (by norm_num)))
        (by omega), hbit]

lemma bitCount_eq_setBelow {x : Nat} (hx : x < 2 ^ 64) : bitCount x = setBelow x 64 := by
  rw [setBelow_eq_bitCount_mod, Nat.mod_eq_of_lt hx]

lemma setBelow_le (m : Nat) (b : Nat) : setBelow m b ≤ b := by
  have := setBelow_add_unsetBelow m b
  omega

lemma bitCount_le_64 {x : Nat} (hx : x < 2 ^ 64) : bitCount x ≤ 64 := by
  rw [bitCount_eq_setBelow hx]
  exact setBelow_le x 64

/-! Characterization of the parallel-prefix XOR: after the six shift-XOR
steps, shifted left by one, bit `b` holds the parity of the number of set
bits strictly below `b`. -/

lemma psStep_lt {s x : Nat} (hx : x < 2 ^ 64) : psStep s x < 2 ^ 64 :=
  Nat.xor_lt_two_pow hx (Nat.mod_lt _ (by norm_num))

lemma psStep_testBit (s x b : Nat) (hb : b < 64) :
    (psStep s x).testBit b =
      (x.testBit b).xor (if s ≤ b then x.testBit (b - s) else false) := by
  unfold psStep
  rw [Nat.testBit_xor, Nat.testBit_mod_two_pow, Nat.testBit_shiftLeft]
  by_cases hs : s ≤ b <;> simp [hb, hs]

lemma psStep_window (s t x y : Nat) (ht : t = 2 * s)
    (h : ∀ b, b < 64 → y.testBit b = (parBelow x (b + 1)).xor (parBelow x (b + 1 - s))) :
    ∀ b, b < 64 → (psStep s y).testBit b =
      (parBelow x (b + 1)).xor (parBelow x (b + 1 - t)) := by
  intro b hb
  rw [psStep_testBit s y b hb, h b hb]
  by_cases hsb : s ≤ b
  · rw [if_pos hsb, h (b - s) (by omega)]
    have e1 : b - s + 1 = b + 1 - s := by omega
    have e2 : b + 1 - s - s = b + 1 - t := by omega
    rw [e1, e2]
    generalize parBelow x (b + 1) = A
    generalize parBelow x (b + 1 - s) = B
    generalize parBelow x (b + 1 - t) = C
    cases A <;> cases B <;> cases C <;> rfl
  · rw [if_neg hsb]
    have e1 : b + 1 - s = 0 := by omega
    have e2 : b + 1 - t = 0 := by omega
    rw [e1, e2, Bool.xor_false]

lemma prefix_sum_base (x : Nat) :
    ∀ b, b < 64 → x.testBit b = (parBelow x (b + 1)).xor (parBelow x (b + 1 - 1)) := by
  intro b _
  have e1 : b + 1 - 1 = b := by omega
  have e2 : parBelow x (b + 1) = (parBelow x b).xor (x.testBit b) := rfl
  rw [e1, e2]
  generalize parBelow x b = B
  cases B <;> cases x.testBit b <;> rfl

lemma prefix_sum_lt {x : Nat} (hx : x < 2 ^ 64) : prefix_sum x < 2 ^ 64 := by
  unfold prefix_sum
  exact psStep_lt (psStep_lt (psStep_lt (psStep_lt (psStep_lt (psStep_lt hx)))))

lemma prefix_sum_testBit (x : Nat) (hx : x < 2 ^ 64) :
    ∀ b, b < 64 → (prefix_sum x).testBit b =
      (parBelow x (b + 1)).xor (parBelow x (b + 1 - 64)) := by
  have h1 := psStep_window 1 2 x x (by norm_num) (prefix_sum_base x)
  have h2 := psStep_window 2 4 x _ (by norm_num) h1
  have h4 := psStep_window 4 8 x _ (by norm_num) h2
  have h8 := psStep_window 8 16 x _ (by norm_num) h4
  have h16 := psStep_window 16 32 x _ (by norm_num) h8
  have h32 := psStep_window 32 64 x _ (by norm_num) h16
  exact h32

lemma ppp_plane_lt (u : Nat) : ppp_plane u < 2 ^ 64 :=
  Nat.mod_lt _ (by norm_num)

lemma ppp_plane_testBit (u : Nat) (hu : u < 2 ^ 64) {b : Nat} (hb : b < 64) :
    (ppp_plane u).testBit b = parBelow u b := by
  unfold ppp_plane
  rw [Nat.testBit_mod_two_pow, Nat.testBit_shiftLeft]
  rcases Nat.eq_zero_or_pos b with hb0 | hb0
  · subst hb0
    simp [parBelow]
  · have hb1 : b - 1 < 64 := by omega
    have hle : 1 ≤ b := hb0
    have h64 := prefix_sum_testBit u hu (b - 1) hb1
    have e1 : b - 1 + 1 = b := by omega
    rw [e1] at h64
    have e2 : b - 64 = 0 := by omega
    have e3 : parBelow u 0 = false := rfl
    rw [e2, e3, Bool.xor_false] at h64
    simp [hb, hle, h64]

/-! The PPP construction: the carry word after `i` iterations has, below
every position `b`, exactly `unsetBelow mask b / 2 ^ i` set bits, so plane
`i` carries binary digit `i` of the running count of unset mask bits. -/

lemma pppCarry_lt {u : Nat} (hu : u < 2 ^ 64) (i : Nat) : pppCarry u i < 2 ^ 64 := by
  induction i with
  | zero => exact hu
  | succ i ih =>
    show pppCarry u i &&& ppp_plane (pppCarry u i) < 2 ^ 64
    exact Nat.and_lt_two_pow _ (ppp_plane_lt _)

lemma setBelow_comp64 {mask : Nat} (hm : mask < 2 ^ 64) :
    ∀ b, b ≤ 64 → setBelow (comp64 mask) b = unsetBelow mask b := by
  intro b
  induction b with
  | zero => intro _; rfl
  | succ b ih =>
    intro hb
    have hbit : (comp64 mask).testBit b = !mask.testBit b := by
      rw [comp64_testBit hm]
      simp [show b < 64 by omega]
    rw [setBelow_succ]
    have : unsetBelow mask (b + 1) = unsetBelow mask b +
        (if mask.testBit b then 0 else 1) := rfl
    rw [this, ih (by omega), hbit]
    cases mask.testBit b <;> simp

lemma setBelow_and_plane {v : Nat} (hv : v < 2 ^ 64) :
    ∀ b, b ≤ 64 → setBelow (v &&& ppp_plane v) b = setBelow v b / 2 := by
  intro b
  induction b with
  | zero => intro _; simp [setBelow]
  | succ b ih =>
    intro hb
    have hb64 : b < 64 := by omega
    have hbit : (v &&& ppp_plane v).testBit b =
        (v.testBit b && decide (setBelow v b % 2 = 1)) := by
      rw [Nat.testBit_and, ppp_plane_testBit v hv hb64, parBelow_eq]
    rw [setBelow_succ, setBelow_succ, ih (by omega), hbit]
    cases hvb : v.testBit b
    · simp
    · by_cases hpar : setBelow v b % 2 = 1 <;> simp [hpar] <;> omega

lemma pppCarry_setBelow {mask : Nat} (hm : mask < 2 ^ 64) :
    ∀ i, ∀ b, b ≤ 64 →
      setBelow (pppCarry (comp64 mask) i) b = unsetBelow mask b / 2 ^ i := by
  intro i
  induction i with
  | zero =>
    intro b hb
    rw [pow_zero, Nat.div_one]
    exact setBelow_comp64 hm b hb
  | succ i ih =>
    intro b hb
    show setBelow (pppCarry (comp64 mask) i &&& ppp_plane (pppCarry (comp64 mask) i)) b = _
    rw [setBelow_and_plane (pppCarry_lt (comp64_lt hm) i) b hb, ih b hb,
      Nat.div_div_eq_div_mul, ← pow_succ]

lemma ppp_bit_testBit {mask : Nat} (hm : mask < 2 ^ 64) (i : Nat) {b : Nat} (hb : b < 64) :
    ((zp7_ppp_64 mask).ppp_bit i).testBit b = (unsetBelow mask b).testBit i := by
  show (ppp_plane (pppCarry (comp64 mask) i)).testBit b = _
  rw [ppp_plane_testBit _ (pppCarry_lt (comp64_lt hm) i) hb, parBelow_eq,
    pppCarry_setBelow hm i b (by omega), Nat.testBit_to_div_mod]

lemma ppp_bit_lt (mask i : Nat) : (zp7_ppp_64 mask).ppp_bit i < 2 ^ 64 :=
  ppp_plane_lt _

/-! Key digit lemmas: moving a position back by `unsetBelow mask b % 2 ^ i`
(or forward by another `2 ^ i` across a set mask bit) does not change
binary digit `i` of the running count of unset mask bits. -/

lemma unsetBelow_div_shiftBack (m i b : Nat) :
    unsetBelow m (b - unsetBelow m b % 2 ^ i) / 2 ^ i = unsetBelow m b / 2 ^ i := by
  have hcb : unsetBelow m b ≤ b := unsetBelow_le m b
  have hp : b - unsetBelow m b % 2 ^ i ≤ b := Nat.sub_le _ _
  have hup : unsetBelow m (b - unsetBelow m b % 2 ^ i) ≤ unsetBelow m b :=
    unsetBelow_mono m hp
  have hlow : unsetBelow m b ≤ unsetBelow m (b - unsetBelow m b % 2 ^ i) +
      (b - (b - unsetBelow m b % 2 ^ i)) := unsetBelow_lipschitz m hp
  have hmodle : unsetBelow m b % 2 ^ i ≤ unsetBelow m b := Nat.mod_le _ _
  have hsub : b - (b - unsetBelow m b % 2 ^ i) = unsetBelow m b % 2 ^ i := by omega
  rw [hsub] at hlow
  have hdm := Nat.mod_add_div (unsetBelow m b) (2 ^ i)
  have hmlt : unsetBelow m b % 2 ^ i < 2 ^ i :=
    Nat.mod_lt _ (Nat.pos_pow_of_pos i (by norm_num))
  apply Nat.div_eq_of_lt_le
  · rw [Nat.mul_comm]
    omega
  · rw [Nat.add_mul, Nat.one_mul, Nat.mul_comm]
    omega

lemma unsetBelow_div_shiftFwd {m b : Nat} (i : Nat) (hbit : m.testBit b = true) :
    unsetBelow m (b - unsetBelow m b % 2 ^ i + 2 ^ i) / 2 ^ i =
      unsetBelow m b / 2 ^ i := by
  have hcb : unsetBelow m b ≤ b := unsetBelow_le m b
  have hmlt : unsetBelow m b % 2 ^ i < 2 ^ i :=
    Nat.mod_lt _ (Nat.pos_pow_of_pos i (by norm_num))
  have hmodle : unsetBelow m b % 2 ^ i ≤ unsetBelow m b := Nat.mod_le _ _
  have hp : b - unsetBelow m b % 2 ^ i ≤ b := Nat.sub_le _ _
  have hplow : unsetBelow m b ≤ unsetBelow m (b - unsetBelow m b % 2 ^ i) +
      (b - (b - unsetBelow m b % 2 ^ i)) := unsetBelow_lipschitz m hp
  have hsub : b - (b - unsetBelow m b % 2 ^ i) = unsetBelow m b % 2 ^ i := by omega
  rw [hsub] at hplow
  have hlow : unsetBelow m (b - unsetBelow m b % 2 ^ i) ≤
      unsetBelow m (b - unsetBelow m b % 2 ^ i + 2 ^ i) :=
    unsetBelow_mono m (Nat.le_add_right _ _)
  have hsuc : unsetBelow m (b + 1) = unsetBelow m b := unsetBelow_succ_of_testBit hbit
  have hble : b + 1 ≤ b - unsetBelow m b % 2 ^ i + 2 ^ i := by omega
  have hup : unsetBelow m (b - unsetBelow m b % 2 ^ i + 2 ^ i) ≤
      unsetBelow m (b + 1) + (b - unsetBelow m b % 2 ^ i + 2 ^ i - (b + 1)) :=
    unsetBelow_lipschitz m hble
  rw [hsuc] at hup
  have hdm := Nat.mod_add_div (unsetBelow m b) (2 ^ i)
  apply Nat.div_eq_of_lt_le
  · rw [Nat.mul_comm]
    omega
  · rw [Nat.add_mul, Nat.one_mul, Nat.mul_comm]
    omega

lemma digit_shiftBack (m i b : Nat) :
    (unsetBelow m (b - unsetBelow m b % 2 ^ i)).testBit i =
      (unsetBelow m b).testBit i := by
  rw [Nat.testBit_to_div_mod, Nat.testBit_to_div_mod, unsetBelow_div_shiftBack]

lemma digit_shiftFwd {m b : Nat} (i : Nat) (hbit : m.testBit b = true) :
    (unsetBelow m (b - unsetBelow m b % 2 ^ i + 2 ^ i)).testBit i =
      (unsetBelow m b).testBit i := by
  rw [Nat.testBit_to_div_mod, Nat.testBit_to_div_mod, unsetBelow_div_shiftFwd i hbit]

lemma mod_pow_succ_of_digit_false {c k : Nat} (h : c.testBit k = false) :
    c % 2 ^ (k + 1) = c % 2 ^ k := by
  have hms := Nat.mod_pow_succ (x := c) (b := 2) (k := k)
  rw [Nat.testBit_to_div_mod] at h
  simp only [decide_eq_false_iff_not] at h
  have h2 : c / 2 ^ k % 2 = 0 := by omega
  rw [h2, Nat.mul_zero, Nat.add_zero] at hms
  exact hms

lemma mod_pow_succ_of_digit_true {c k : Nat} (h : c.testBit k = true) :
    c % 2 ^ (k + 1) = c % 2 ^ k + 2 ^ k := by
  have hms := Nat.mod_pow_succ (x := c) (b := 2) (k := k)
  rw [Nat.testBit_to_div_mod] at h
  simp only [decide_eq_true_eq] at h
  rw [h, Nat.mul_one] at hms
  exact hms

lemma bool_eq_of_iff {a b : Bool} (h : a = true ↔ b = true) : a = b := by
  cases a <;> cases b <;> simp_all

/-! PEXT loop invariant: after `k` iterations, the input bit taken from a
set mask position `b` sits at position `b - unsetBelow mask b % 2 ^ k`. -/

lemma pext_inv (a mask : Nat) (hm : mask < 2 ^ 64) :
    ∀ k, pextIter (zp7_ppp_64 mask) a k < 2 ^ 64 ∧
      (∀ q, (pextIter (zp7_ppp_64 mask) a k).testBit q = true ↔
        ∃ b, b < 64 ∧ mask.testBit b = true ∧ a.testBit b = true ∧
          b - unsetBelow mask b % 2 ^ k = q) := by
  intro k
  induction k with
  | zero =>
    refine ⟨Nat.and_lt_two_pow a hm, ?_⟩
    intro q
    show (a &&& mask).testBit q = true ↔ _
    rw [Nat.testBit_and, Bool.and_eq_true]
    constructor
    · intro ⟨ha, hq⟩
      have hq64 : q < 64 := by
        by_contra hq64
        rw [testBit_false_of_lt hm (by omega)] at hq
        exact Bool.false_ne_true hq
      exact ⟨q, hq64, hq, ha, by simp [pow_zero, Nat.mod_one]⟩
    · rintro ⟨b, hb64, hmb, hab, hbq⟩
      rw [pow_zero, Nat.mod_one, Nat.sub_zero] at hbq
      subst hbq
      exact ⟨hab, hmb⟩
  | succ k ih =>
    obtain ⟨hlt, hchar⟩ := ih
    have hBlt := ppp_bit_lt mask k
    have hshift : (1 : Nat) <<< k = 2 ^ k := Nat.one_shiftLeft k
    have hstep : pextIter (zp7_ppp_64 mask) a (k + 1) =
        (pextIter (zp7_ppp_64 mask) a k &&& comp64 ((zp7_ppp_64 mask).ppp_bit k)) |||
        ((pextIter (zp7_ppp_64 mask) a k &&& (zp7_ppp_64 mask).ppp_bit k) >>> (1 <<< k)) :=
      rfl
    constructor
    · rw [hstep]
      refine Nat.or_lt_two_pow (Nat.and_lt_two_pow _ (comp64_lt hBlt)) ?_
      calc (pextIter (zp7_ppp_64 mask) a k &&& (zp7_ppp_64 mask).ppp_bit k) >>> (1 <<< k)
          ≤ pextIter (zp7_ppp_64 mask) a k &&& (zp7_ppp_64 mask).ppp_bit k := by
            rw [Nat.shiftRight_eq_div_pow]; exact Nat.div_le_self _ _
        _ ≤ pextIter (zp7_ppp_64 mask) a k := Nat.and_le_left
        _ < 2 ^ 64 := hlt
    · intro q
      rw [hstep, Nat.testBit_or, Nat.testBit_and, Nat.testBit_shiftRight,
        Nat.testBit_and, hshift, comp64_testBit hBlt, Bool.or_eq_true,
        Bool.and_eq_true, Bool.and_eq_true, Bool.and_eq_true,
        Bool.not_eq_true', decide_eq_true_eq]
      constructor
      · rintro (⟨hstq, hq64, hBq⟩ | ⟨hstq, hBq⟩)
        · -- the bit did not move at this step: its digit `k` is 0
          obtain ⟨b, hb64, hmb, hab, hpos⟩ := (hchar q).mp hstq
          have hdig : (unsetBelow mask b).testBit k = false := by
            rw [← digit_shiftBack mask k b, hpos]
            rw [ppp_bit_testBit hm k hq64] at hBq
            exact hBq
          refine ⟨b, hb64, hmb, hab, ?_⟩
          rw [mod_pow_succ_of_digit_false hdig]
          exact hpos
        · -- the bit moved right by 2 ^ k: its digit `k` is 1
          have hq2 : 2 ^ k + q < 64 := by
            by_contra hq2
            rw [testBit_false_of_lt hBlt (by omega)] at hBq
            exact Bool.false_ne_true hBq
          obtain ⟨b, hb64, hmb, hab, hpos⟩ := (hchar (2 ^ k + q)).mp hstq
          have hdig : (unsetBelow mask b).testBit k = true := by
            rw [← digit_shiftBack mask k b, hpos]
            rw [ppp_bit_testBit hm k hq2] at hBq
            exact hBq
          refine ⟨b, hb64, hmb, hab, ?_⟩
          rw [mod_pow_succ_of_digit_true hdig]
          omega
      · rintro ⟨b, hb64, hmb, hab, hpos⟩
        have hcble : unsetBelow mask b ≤ b := unsetBelow_le mask b
        have hmlt : unsetBelow mask b % 2 ^ k < 2 ^ k :=
          Nat.mod_lt _ (Nat.pos_pow_of_pos k (by norm_num))
        cases hdig : (unsetBelow mask b).testBit k
        · -- digit 0: the bit stays put
          left
          have hmodeq := mod_pow_succ_of_digit_false hdig
          rw [hmodeq] at hpos
          have hq64 : q < 64 := by omega
          refine ⟨(hchar q).mpr ⟨b, hb64, hmb, hab, hpos⟩, hq64, ?_⟩
          rw [ppp_bit_testBit hm k hq64, ← hpos, digit_shiftBack mask k b, hdig]
        · -- digit 1: the bit moves right by 2 ^ k
          right
          have hmodeq := mod_pow_succ_of_digit_true hdig
          rw [hmodeq] at hpos
          have hmod2 : unsetBelow mask b % 2 ^ (k + 1) ≤ unsetBelow mask b :=
            Nat.mod_le _ _
          have hge : 2 ^ k ≤ b - unsetBelow mask b % 2 ^ k := by
            have := Nat.mod_le (unsetBelow mask b) (2 ^ (k + 1))
            omega
          have hqeq : 2 ^ k + q = b - unsetBelow mask b % 2 ^ k := by omega
          have hq2 : 2 ^ k + q < 64 := by omega
          refine ⟨(hchar (2 ^ k + q)).mpr ⟨b, hb64, hmb, hab, hqeq.symm⟩, ?_⟩
          rw [ppp_bit_testBit hm k hq2, hqeq, digit_shiftBack mask k b, hdig]

lemma zp7_pext_pre_char (a mask : Nat) (hm : mask < 2 ^ 64) (q : Nat) :
    (zp7_pext_pre_64 a (zp7_ppp_64 mask)).testBit q = true ↔
      ∃ b, b < 64 ∧ mask.testBit b = true ∧ a.testBit b = true ∧
        setBelow mask b = q := by
  have h := (pext_inv a mask hm 6).2 q
  show (pextIter (zp7_ppp_64 mask) a 6).testBit q = true ↔ _
  rw [h]
  constructor
  · rintro ⟨b, hb64, hmb, hab, hpos⟩
    refine ⟨b, hb64, hmb, hab, ?_⟩
    have h1 : unsetBelow mask b ≤ b := unsetBelow_le mask b
    have h2 : unsetBelow mask b % 2 ^ 6 = unsetBelow mask b :=
      Nat.mod_eq_of_lt (by norm_num at hpos ⊢; omega)
    have h3 := setBelow_add_unsetBelow mask b
    rw [h2] at hpos
    omega
  · rintro ⟨b, hb64, hmb, hab, hpos⟩
    refine ⟨b, hb64, hmb, hab, ?_⟩
    have h1 : unsetBelow mask b ≤ b := unsetBelow_le mask b
    have h2 : unsetBelow mask b % 2 ^ 6 = unsetBelow mask b :=
      Nat.mod_eq_of_lt (by norm_num; omega)
    have h3 := setBelow_add_unsetBelow mask b
    rw [h2]
    omega

/-! Characterization of the reference gather and scatter definitions. -/

lemma pextRefAux_lt (a mask : Nat) : ∀ n, pextRefAux a mask n < 2 ^ setBelow mask n := by
  intro n
  induction n with
  | zero => simp [pextRefAux, setBelow]
  | succ n ih =>
    show pextRefAux a mask n +
        (if mask.testBit n && a.testBit n then 2 ^ setBelow mask n else 0) <
      2 ^ setBelow mask (n + 1)
    rw [setBelow_succ]
    cases hmn : mask.testBit n
    · simpa using ih
    · have hpow : 2 ^ (setBelow mask n + 1) = 2 ^ setBelow mask n + 2 ^ setBelow mask n := by
        rw [pow_succ]; omega
      cases han : a.testBit n <;> simp [hmn, han, hpow] <;> omega

lemma testBit_add_two_pow {S : Nat} (r : Nat) (hS : S < 2 ^ r) (q : Nat) :
    (S + 2 ^ r).testBit q = (decide (q = r) || S.testBit q) := by
  rw [Nat.add_comm]
  rcases lt_trichotomy q r with hq | hq | hq
  · rw [Nat.testBit_two_pow_add_gt hq]
    simp [Nat.ne_of_lt hq]
  · subst hq
    rw [Nat.testBit_two_pow_add_eq, Nat.testBit_lt_two_pow hS]
    simp
  · have h1 : 2 ^ r + S < 2 ^ q := by
      have : 2 ^ (r + 1) ≤ 2 ^ q := Nat.pow_le_pow_right (by norm_num) hq
      rw [pow_succ] at this
      omega
    rw [Nat.testBit_lt_two_pow h1,
      Nat.testBit_lt_two_pow (lt_trans hS (Nat.pow_lt_pow_right (by norm_num) hq))]
    simp [Nat.ne_of_gt hq]

lemma pextRefAux_testBit (a mask : Nat) :
    ∀ n q, (pextRefAux a mask n).testBit q = true ↔
      ∃ b, b < n ∧ mask.testBit b = true ∧ a.testBit b = true ∧
        setBelow mask b = q := by
  intro n
  induction n with
  | zero =>
    intro q
    simp [pextRefAux]
  | succ n ih =>
    intro q
    have hstep : pextRefAux a mask (n + 1) = pextRefAux a mask n +
        (if mask.testBit n && a.testBit n then 2 ^ setBelow mask n else 0) := rfl
    rw [hstep]
    cases hcond : (mask.testBit n && a.testBit n)
    · rw [if_neg (by simp [hcond]), Nat.add_zero, ih q]
      constructor
      · rintro ⟨b, hb, h1, h2, h3⟩
        exact ⟨b, by omega, h1, h2, h3⟩
      · rintro ⟨b, hb, h1, h2, h3⟩
        rcases Nat.lt_or_ge b n with hbn | hbn
        · exact ⟨b, hbn, h1, h2, h3⟩
        · have hbn' : b = n := by omega
          subst hbn'
          rw [h1, h2] at hcond
          exact absurd hcond (by simp)
    · rw [Bool.and_eq_true] at hcond
      obtain ⟨hmn, han⟩ := hcond
      rw [if_pos (by simp [hmn, han]),
        testBit_add_two_pow (setBelow mask n) (pextRefAux_lt a mask n) q,
        Bool.or_eq_true, decide_eq_true_eq, ih q]
      constructor
      · rintro (hqr | ⟨b, hb, h1, h2, h3⟩)
        · exact ⟨n, by omega, hmn, han, hqr.symm⟩
        · exact ⟨b, by omega, h1, h2, h3⟩
      · rintro ⟨b, hb, h1, h2, h3⟩
        rcases Nat.lt_or_ge b n with hbn | hbn
        · exact Or.inr ⟨b, hbn, h1, h2, h3⟩
        · have hbn' : b = n := by omega
          subst hbn'
          exact Or.inl h3.symm

lemma pextRef_testBit (a mask q : Nat) :
    (pextRef a mask).testBit q = true ↔
      ∃ b, b < 64 ∧ mask.testBit b = true ∧ a.testBit b = true ∧
        setBelow mask b = q :=
  pextRefAux_testBit a mask 64 q

lemma zp7_pext_64_char (a mask : Nat) (hm : mask < 2 ^ 64) (q : Nat) :
    (zp7_pext_64 a mask).testBit q = true ↔
      ∃ b, b < 64 ∧ mask.testBit b = true ∧ a.testBit b = true ∧
        setBelow mask b = q :=
  zp7_pext_pre_char a mask hm q

lemma zp7_pext_64_eq_ref (a mask : Nat) (hm : mask < 2 ^ 64) :
    zp7_pext_64 a mask = pextRef a mask := by
  apply Nat.eq_of_testBit_eq
  intro q
  exact bool_eq_of_iff ((zp7_pext_64_char a mask hm q).trans (pextRef_testBit a mask q).symm)

/-- C3: for every 64-bit mask, every plane index `i` in 0..5 and every bit
position `b` in 0..63, bit `b` of plane `i` of `zp7_ppp_64 mask` is set if
and only if binary digit `i` of the number of positions strictly below `b`
at which the mask is unset is 1 (the count never includes `b` itself). -/
theorem zp7_ppp_64_plane_digits (mask : Nat) (hm : mask < 2 ^ 64)
    (i : Nat) (hi : i < 6) (b : Nat) (hb : b < 64) :
    ((zp7_ppp_64 mask).ppp_bit i).testBit b = (unsetBelow mask b).testBit i :=
  ppp_bit_testBit hm i hb

theorem zp7_ppp_64_plane_digits_witness :
    (0xF0F0 : Nat) < 2 ^ 64 ∧ (1 : Nat) < 6 ∧ (9 : Nat) < 64 ∧
      ((zp7_ppp_64 0xF0F0).ppp_bit 1).testBit 9 = (unsetBelow 0xF0F0 9).testBit 1 :=
  ⟨by norm_num, by norm_num, by norm_num,
    zp7_ppp_64_plane_digits 0xF0F0 (by norm_num) 1 (by norm_num) 9 (by norm_num)⟩

/-- C1: for every 64-bit input `a` and every 64-bit mask, `zp7_pext_64`
computes the reference PEXT result: the bits of `a` at set mask positions,
repacked contiguously from bit 0 in mask order, and every output bit at
index at least `popcount mask` is zero. -/
theorem zp7_pext_64_correct (a mask : Nat) (ha : a < 2 ^ 64) (hm : mask < 2 ^ 64) :
    zp7_pext_64 a mask = pextRef a mask ∧
      ∀ j, bitCount mask ≤ j → (zp7_pext_64 a mask).testBit j = false := by
  refine ⟨zp7_pext_64_eq_ref a mask hm, ?_⟩
  intro j hj
  by_contra hbit
  have hbit' : (zp7_pext_64 a mask).testBit j = true := by
    revert hbit
    cases (zp7_pext_64 a mask).testBit j <;> simp
  obtain ⟨b, hb64, hmb, _, hrank⟩ := (zp7_pext_64_char a mask hm j).mp hbit'
  have h1 : setBelow mask b < setBelow mask 64 := setBelow_lt_of_testBit hb64 hmb
  have h2 : bitCount mask = setBelow mask 64 := bitCount_eq_setBelow hm
  omega

theorem zp7_pext_64_correct_witness :
    (0xFFFFFFFFFFFFFFFF : Nat) < 2 ^ 64 ∧ (0x0F0F0F0F0F0F0F0F : Nat) < 2 ^ 64 ∧
      (zp7_pext_64 0xFFFFFFFFFFFFFFFF 0x0F0F0F0F0F0F0F0F =
          pextRef 0xFFFFFFFFFFFFFFFF 0x0F0F0F0F0F0F0F0F ∧
        ∀ j, bitCount 0x0F0F0F0F0F0F0F0F ≤ j →
          (zp7_pext_64 0xFFFFFFFFFFFFFFFF 0x0F0F0F0F0F0F0F0F).testBit j = false) :=
  ⟨by norm_num, by norm_num,
    zp7_pext_64_correct 0xFFFFFFFFFFFFFFFF 0x0F0F0F0F0F0F0F0F (by norm_num) (by norm_num)⟩

lemma pextIter_base_idem (masks : zp7_masks_64_t) (a : Nat) :
    ∀ k, pextIter masks (a &&& masks.mask) k = pextIter masks a k := by
  intro k
  induction k with
  | zero =>
    show (a &&& masks.mask) &&& masks.mask = a &&& masks.mask
    apply Nat.eq_of_testBit_eq
    intro j
    simp [Nat.testBit_and, Bool.and_assoc]
  | succ k ih =>
    show pextStep masks k (pextIter masks (a &&& masks.mask) k) =
      pextStep masks k (pextIter masks a k)
    rw [ih]

/-- C10: the gather result is insensitive to input bits outside the mask:
`zp7_pext_64 a mask = zp7_pext_64 (a &&& mask) mask`. -/
theorem zp7_pext_64_mask_insensitive (a mask : Nat)
    (ha : a < 2 ^ 64) (hm : mask < 2 ^ 64) :
    zp7_pext_64 a mask = zp7_pext_64 (a &&& mask) mask :=
  (pextIter_base_idem (zp7_ppp_64 mask) a 6).symm

theorem zp7_pext_64_mask_insensitive_witness :
    (0xDEADBEEF12345678 : Nat) < 2 ^ 64 ∧ (0xFF00FF00FF00FF00 : Nat) < 2 ^ 64 ∧
      zp7_pext_64 0xDEADBEEF12345678 0xFF00FF00FF00FF00 =
        zp7_pext_64 (0xDEADBEEF12345678 &&& 0xFF00FF00FF00FF00) 0xFF00FF00FF00FF00 :=
  ⟨by norm_num, by norm_num,
    zp7_pext_64_mask_insensitive 0xDEADBEEF12345678 0xFF00FF00FF00FF00
      (by norm_num) (by norm_num)⟩

/-! Correctness of the SWAR popcount: the three masking steps act
byte-wise, so they are analyzed through a byte-map combinator. -/

/-- A mask byte repeated `n` times (e.g. `repMask 0x55 8 = 0x5555555555555555`). -/
def repMask (c : Nat) : Nat → Nat
  | 0 => 0
  | n + 1 => c + 256 * repMask c n

/-- Apply `f` independently to each of the `n` low bytes of `x`. -/
def byteMap (f : Nat → Nat) : Nat → Nat → Nat
  | 0, _ => 0
  | n + 1, x => f (x % 256) + 256 * byteMap f n (x / 256)

/-- Per-byte effect of the first SWAR step `x - ((x >> 1) & 0x55..55)`. -/
def pcF1 (a : Nat) : Nat := a - (a / 2 &&& 0x55)

/-- Per-byte effect of the second SWAR step
`(x & 0x33..33) + ((x >> 2) & 0x33..33)`. -/
def pcF2 (a : Nat) : Nat := (a &&& 0x33) + (a / 4 &&& 0x33)

/-- Per-byte effect of the third SWAR step `(x + (x >> 4)) & 0x0f..0f`. -/
def pcF3 (a : Nat) : Nat := (a + a / 16) &&& 0x0f

lemma land_split8 {l m : Nat} (h g : Nat) (hl : l < 256) (hm : m < 256) :
    (l + 256 * h) &&& (m + 256 * g) = (l &&& m) + 256 * (h &&& g) := by
  have e8 : (256 : Nat) = 2 ^ 8 := by norm_num
  rw [e8] at hl hm ⊢
  exact land_split 8 h g hl hm

lemma land_high_irrelevant {l m : Nat} (w e : Nat) (hl : l < 2 ^ w) (hm : m < 2 ^ w) :
    (l + 2 ^ w * e) &&& m = l &&& m := by
  apply Nat.eq_of_testBit_eq
  intro j
  rw [Nat.testBit_and, Nat.testBit_and, addLow_testBit w e j hl]
  by_cases hj : j < w
  · rw [if_pos hj]
  · rw [if_neg hj]
    have hmf : m.testBit j = false :=
      Nat.testBit_lt_two_pow
        (lt_of_lt_of_le hm (Nat.pow_le_pow_right (by norm_num) (by omega)))
    simp [hmf]

lemma sub64_eq_sub {a b : Nat} (h : b ≤ a) (ha : a < 2 ^ 64) : sub64 a b = a - b := by
  unfold sub64
  have h1 : 2 ^ 64 + a - b = 2 ^ 64 + (a - b) := by omega
  rw [h1, Nat.add_mod_left, Nat.mod_eq_of_lt (by omega)]

lemma byteMap_lt (f : Nat → Nat) (hf : ∀ a, a < 256 → f a < 256) :
    ∀ n x, byteMap f n x < 256 ^ n := by
  intro n
  induction n with
  | zero => intro x; simp [byteMap]
  | succ n ih =>
    intro x
    have h1 : f (x % 256) < 256 := hf _ (Nat.mod_lt _ (by norm_num))
    have h2 : byteMap f n (x / 256) < 256 ^ n := ih (x / 256)
    show f (x % 256) + 256 * byteMap f n (x / 256) < 256 ^ (n + 1)
    rw [pow_succ]
    omega

lemma swar1_eq : ∀ n x, x < 256 ^ n →
    x - (x >>> 1 &&& repMask 0x55 n) = byteMap pcF1 n x := by
  intro n
  induction n with
  | zero =>
    intro x hx
    have hx0 : x = 0 := by simpa using hx
    subst hx0
    simp [byteMap, repMask]
  | succ n ih =>
    intro x hx
    have hb : x / 256 < 256 ^ n := by
      rw [Nat.div_lt_iff_lt_mul (by norm_num)]
      calc x < 256 ^ (n + 1) := hx
        _ = 256 ^ n * 256 := by rw [pow_succ]
    have key : x >>> 1 = (x % 256 / 2 + 128 * (x / 256 % 2)) + 256 * (x / 256 / 2) := by
      rw [Nat.shiftRight_eq_div_pow, pow_one]
      omega
    have hmask : repMask 0x55 (n + 1) = 0x55 + 256 * repMask 0x55 n := rfl
    have hand : x >>> 1 &&& repMask 0x55 (n + 1) =
        ((x % 256 / 2 + 128 * (x / 256 % 2)) &&& 0x55) +
          256 * (x / 256 / 2 &&& repMask 0x55 n) := by
      rw [key, hmask]
      exact land_split8 _ _ (by omega) (by norm_num)
    have hlow : (x % 256 / 2 + 128 * (x / 256 % 2)) &&& 0x55 = x % 256 / 2 &&& 0x55 := by
      have h7 := land_high_irrelevant 7 (x / 256 % 2) (l := x % 256 / 2) (m := 0x55)
        (by omega) (by norm_num)
      norm_num at h7
      exact h7
    have hb2 : (x / 256) >>> 1 = x / 256 / 2 := by
      rw [Nat.shiftRight_eq_div_pow, pow_one]
    have hIH := ih (x / 256) hb
    rw [hb2] at hIH
    have hBM : byteMap pcF1 (n + 1) x = pcF1 (x % 256) + 256 * byteMap pcF1 n (x / 256) :=
      rfl
    have hs1 : x % 256 / 2 &&& 0x55 ≤ x % 256 / 2 := Nat.and_le_left
    have hs2 : x / 256 / 2 &&& repMask 0x55 n ≤ x / 256 / 2 := Nat.and_le_left
    rw [hand, hlow, hBM, ← hIH]
    unfold pcF1
    omega

lemma swar2_eq : ∀ n x, x < 256 ^ n →
    (x &&& repMask 0x33 n) + (x >>> 2 &&& repMask 0x33 n) = byteMap pcF2 n x := by
  intro n
  induction n with
  | zero =>
    intro x hx
    have hx0 : x = 0 := by simpa using hx
    subst hx0
    simp [byteMap, repMask]
  | succ n ih =>
    intro x hx
    have hb : x / 256 < 256 ^ n := by
      rw [Nat.div_lt_iff_lt_mul (by norm_num)]
      calc x < 256 ^ (n + 1) := hx
        _ = 256 ^ n * 256 := by rw [pow_succ]
    have hmask : repMask 0x33 (n + 1) = 0x33 + 256 * repMask 0x33 n := rfl
    have hxsplit : x = x % 256 + 256 * (x / 256) := by omega
    have hand1 : x &&& repMask 0x33 (n + 1) =
        (x % 256 &&& 0x33) + 256 * (x / 256 &&& repMask 0x33 n) := by
      conv_lhs => rw [hxsplit, hmask]
      exact land_split8 _ _ (by omega) (by norm_num)
    have key : x >>> 2 = (x % 256 / 4 + 64 * (x / 256 % 4)) + 256 * (x / 256 / 4) := by
      rw [Nat.shiftRight_eq_div_pow]
      norm_num
      omega
    have hand2 : x >>> 2 &&& repMask 0x33 (n + 1) =
        ((x % 256 / 4 + 64 * (x / 256 % 4)) &&& 0x33) +
          256 * (x / 256 / 4 &&& repMask 0x33 n) := by
      rw [key, hmask]
      exact land_split8 _ _ (by omega) (by norm_num)
    have hlow : (x % 256 / 4 + 64 * (x / 256 % 4)) &&& 0x33 = x % 256 / 4 &&& 0x33 := by
      have h6 := land_high_irrelevant 6 (x / 256 % 4) (l := x % 256 / 4) (m := 0x33)
        (by omega) (by norm_num)
      norm_num at h6
      exact h6
    have hb2 : (x / 256) >>> 2 = x / 256 / 4 := by
      rw [Nat.shiftRight_eq_div_pow]
    have hIH := ih (x / 256) hb
    rw [hb2] at hIH
    have hBM : byteMap pcF2 (n + 1) x = pcF2 (x % 256) + 256 * byteMap pcF2 n (x / 256) :=
      rfl
    rw [hand1, hand2, hlow, hBM, ← hIH]
    unfold pcF2
    ring

lemma swar3_eq : ∀ n x, x < 256 ^ n →
    (∀ k, x / 256 ^ k % 256 % 16 ≤ 6 ∧ x / 256 ^ k % 256 / 16 ≤ 6) →
    (x + x >>> 4) &&& repMask 0x0f n = byteMap pcF3 n x := by
  intro n
  induction n with
  | zero =>
    intro x hx _
    have hx0 : x = 0 := by simpa using hx
    subst hx0
    simp [byteMap, repMask]
  | succ n ih =>
    intro x hx hnib
    have hb : x / 256 < 256 ^ n := by
      rw [Nat.div_lt_iff_lt_mul (by norm_num)]
      calc x < 256 ^ (n + 1) := hx
        _ = 256 ^ n * 256 := by rw [pow_succ]
    have h0 := hnib 0
    rw [pow_zero, Nat.div_one] at h0
    have h1 := hnib 1
    rw [pow_one] at h1
    have hbl : x / 256 % 16 ≤ 6 := by omega
    have key : x + x >>> 4 =
        (x % 256 % 16 + x % 256 / 16 + 16 * (x % 256 / 16 + x / 256 % 16)) +
          256 * (x / 256 + x / 256 / 16) := by
      rw [Nat.shiftRight_eq_div_pow]
      have h16 : (2 : Nat) ^ 4 = 16 := by norm_num
      rw [h16]
      omega
    have hL : x % 256 % 16 + x % 256 / 16 + 16 * (x % 256 / 16 + x / 256 % 16) < 256 := by
      omega
    have hmask : repMask 0x0f (n + 1) = 0x0f + 256 * repMask 0x0f n := rfl
    have hlow : (x % 256 % 16 + x % 256 / 16 + 16 * (x % 256 / 16 + x / 256 % 16)) &&& 0x0f =
        x % 256 % 16 + x % 256 / 16 := by
      have h15 : (0x0f : Nat) = 2 ^ 4 - 1 := by norm_num
      rw [h15, Nat.and_pow_two_sub_one_eq_mod]
      have h16 : (2 : Nat) ^ 4 = 16 := by norm_num
      rw [h16]
      omega
    have hF3 : pcF3 (x % 256) = x % 256 % 16 + x % 256 / 16 := by
      unfold pcF3
      have h15 : (0x0f : Nat) = 2 ^ 4 - 1 := by norm_num
      rw [h15, Nat.and_pow_two_sub_one_eq_mod]
      have h16 : (2 : Nat) ^ 4 = 16 := by norm_num
      rw [h16]
      omega
    have hnib' : ∀ k, x / 256 / 256 ^ k % 256 % 16 ≤ 6 ∧ x / 256 / 256 ^ k % 256 / 16 ≤ 6 := by
      intro k
      have h := hnib (k + 1)
      rw [pow_succ', ← Nat.div_div_eq_div_mul] at h
      exact h
    have hb4 : (x / 256) >>> 4 = x / 256 / 16 := by
      rw [Nat.shiftRight_eq_div_pow]
    have hIH := ih (x / 256) hb hnib'
    rw [hb4] at hIH
    have hBM : byteMap pcF3 (n + 1) x = pcF3 (x % 256) + 256 * byteMap pcF3 n (x / 256) :=
      rfl
    rw [key, hmask, land_split8 _ _ hL (by norm_num), hlow, hBM, hF3, ← hIH]

/-- Composite of the first two SWAR steps on one byte. -/
def pcF21 (a : Nat) : Nat := pcF2 (pcF1 a)

/-- Composite of all three SWAR masking steps on one byte. -/
def pcByte (a : Nat) : Nat := pcF3 (pcF21 a)

lemma byteMap_comp (f g : Nat → Nat) (hf : ∀ a, a < 256 → f a < 256) :
    ∀ n x, byteMap g n (byteMap f n x) = byteMap (fun a => g (f a)) n x := by
  intro n
  induction n with
  | zero => intro x; simp [byteMap]
  | succ n ih =>
    intro x
    have hA : f (x % 256) < 256 := hf _ (Nat.mod_lt _ (by norm_num))
    have h1 : byteMap f (n + 1) x % 256 = f (x % 256) := by
      show (f (x % 256) + 256 * byteMap f n (x / 256)) % 256 = f (x % 256)
      omega
    have h2 : byteMap f (n + 1) x / 256 = byteMap f n (x / 256) := by
      show (f (x % 256) + 256 * byteMap f n (x / 256)) / 256 = byteMap f n (x / 256)
      omega
    show g (byteMap f (n + 1) x % 256) + 256 * byteMap g n (byteMap f (n + 1) x / 256) = _
    rw [h1, h2, ih]
    rfl

lemma byteMap_byte (f : Nat → Nat) (hf : ∀ a, a < 256 → f a < 256) :
    ∀ n x k, byteMap f n x / 256 ^ k % 256 = if k < n then f (x / 256 ^ k % 256) else 0 := by
  intro n
  induction n with
  | zero =>
    intro x k
    simp [byteMap]
  | succ n ih =>
    intro x k
    cases k with
    | zero =>
      rw [pow_zero, Nat.div_one, Nat.div_one]
      have hA : f (x % 256) < 256 := hf _ (Nat.mod_lt _ (by norm_num))
      show (f (x % 256) + 256 * byteMap f n (x / 256)) % 256 = _
      simp only [show (0 : Nat) < n + 1 from by omega, if_pos]
      omega
    | succ k =>
      have hdiv : byteMap f (n + 1) x / 256 ^ (k + 1) =
          byteMap f n (x / 256) / 256 ^ k := by
        rw [pow_succ', ← Nat.div_div_eq_div_mul]
        congr 1
        have hA : f (x % 256) < 256 := hf _ (Nat.mod_lt _ (by norm_num))
        show (f (x % 256) + 256 * byteMap f n (x / 256)) / 256 = byteMap f n (x / 256)
        omega
      have hdiv2 : x / 256 ^ (k + 1) = x / 256 / 256 ^ k := by
        rw [pow_succ', ← Nat.div_div_eq_div_mul]
      rw [hdiv, hdiv2, ih (x / 256) k]
      by_cases hk : k < n
      · rw [if_pos hk, if_pos (by omega)]
      · rw [if_neg hk, if_neg (by omega)]

lemma byteMap_le (f : Nat → Nat) (c : Nat) (hf : ∀ a, a < 256 → f a ≤ c) :
    ∀ n x, byteMap f n x ≤ repMask c n := by
  intro n
  induction n with
  | zero => intro x; simp [byteMap, repMask]
  | succ n ih =>
    intro x
    have h1 : f (x % 256) ≤ c := hf _ (Nat.mod_lt _ (by norm_num))
    have h2 : byteMap f n (x / 256) ≤ repMask c n := ih (x / 256)
    show f (x % 256) + 256 * byteMap f n (x / 256) ≤ c + 256 * repMask c n
    omega

lemma pcF1_lt : ∀ a, a < 256 → pcF1 a < 256 := by
  intro a ha
  exact lt_of_le_of_lt (Nat.sub_le _ _) ha

lemma pcF2_le : ∀ a, pcF2 a ≤ 102 := by
  intro a
  have h1 : a &&& 0x33 ≤ 0x33 := Nat.and_le_right
  have h2 : a / 4 &&& 0x33 ≤ 0x33 := Nat.and_le_right
  unfold pcF2
  omega

lemma pcF21_lt : ∀ a, a < 256 → pcF21 a < 256 := by
  intro a _
  exact lt_of_le_of_lt (pcF2_le (pcF1 a)) (by norm_num)

set_option maxRecDepth 4096 in
lemma pcF21_nibbles : ∀ a, a < 256 → pcF21 a % 16 ≤ 6 ∧ pcF21 a / 16 ≤ 6 := by decide

set_option maxRecDepth 4096 in
lemma pcByte_popcount : ∀ a, a < 256 → pcByte a = setBelow a 8 ∧ pcByte a ≤ 8 := by decide

lemma mul_ones_sum (w0 w1 w2 w3 w4 w5 w6 w7 : Nat)
    (h0 : w0 ≤ 8) (h1 : w1 ≤ 8) (h2 : w2 ≤ 8) (h3 : w3 ≤ 8)
    (h4 : w4 ≤ 8) (h5 : w5 ≤ 8) (h6 : w6 ≤ 8) (h7 : w7 ≤ 8) :
    ((w0 + 256 * (w1 + 256 * (w2 + 256 * (w3 + 256 * (w4 + 256 * (w5 + 256 *
        (w6 + 256 * (w7 + 256 * 0)))))))) * 72340172838076673) %
      18446744073709551616 / 72057594037927936 =
    w0 + w1 + w2 + w3 + w4 + w5 + w6 + w7 := by
  have hsplit : (w0 + 256 * (w1 + 256 * (w2 + 256 * (w3 + 256 * (w4 + 256 * (w5 + 256 *
      (w6 + 256 * (w7 + 256 * 0)))))))) * 72340172838076673 =
      (w0 + 256 * (w0 + w1) + 65536 * (w0 + w1 + w2) +
        16777216 * (w0 + w1 + w2 + w3) +
        4294967296 * (w0 + w1 + w2 + w3 + w4) +
        1099511627776 * (w0 + w1 + w2 + w3 + w4 + w5) +
        281474976710656 * (w0 + w1 + w2 + w3 + w4 + w5 + w6) +
        72057594037927936 * (w0 + w1 + w2 + w3 + w4 + w5 + w6 + w7)) +
      18446744073709551616 *
        ((w1 + w2 + w3 + w4 + w5 + w6 + w7) +
          256 * (w2 + w3 + w4 + w5 + w6 + w7) +
          65536 * (w3 + w4 + w5 + w6 + w7) +
          16777216 * (w4 + w5 + w6 + w7) +
          4294967296 * (w5 + w6 + w7) +
          1099511627776 * (w6 + w7) +
          281474976710656 * w7) := by
    ring
  rw [hsplit, Nat.add_mul_mod_self_left, Nat.mod_eq_of_lt (by omega)]
  omega

lemma mul_ones_extract (f : Nat → Nat) (hf : ∀ a, a < 256 → f a ≤ 8) (x : Nat) :
    ((byteMap f 8 x * 0x0101010101010101) % 2 ^ 64) >>> 56 =
      f (x % 256) + f (x / 256 % 256) + f (x / 256 / 256 % 256) +
      f (x / 256 / 256 / 256 % 256) + f (x / 256 / 256 / 256 / 256 % 256) +
      f (x / 256 / 256 / 256 / 256 / 256 % 256) +
      f (x / 256 / 256 / 256 / 256 / 256 / 256 % 256) +
      f (x / 256 / 256 / 256 / 256 / 256 / 256 / 256 % 256) := by
  have hBM : byteMap f 8 x =
      f (x % 256) + 256 * (f (x / 256 % 256) + 256 * (f (x / 256 / 256 % 256) + 256 * (
        f (x / 256 / 256 / 256 % 256) + 256 * (f (x / 256 / 256 / 256 / 256 % 256) + 256 * (
        f (x / 256 / 256 / 256 / 256 / 256 % 256) + 256 * (
        f (x / 256 / 256 / 256 / 256 / 256 / 256 % 256) + 256 * (
        f (x / 256 / 256 / 256 / 256 / 256 / 256 / 256 % 256) + 256 * 0))))))) := rfl
  have hm : ∀ y : Nat, y % 256 < 256 := fun y => Nat.mod_lt _ (by norm_num)
  have h0 := hf _ (hm x)
  have h1 := hf _ (hm (x / 256))
  have h2 := hf _ (hm (x / 256 / 256))
  have h3 := hf _ (hm (x / 256 / 256 / 256))
  have h4 := hf _ (hm (x / 256 / 256 / 256 / 256))
  have h5 := hf _ (hm (x / 256 / 256 / 256 / 256 / 256))
  have h6 := hf _ (hm (x / 256 / 256 / 256 / 256 / 256 / 256))
  have h7 := hf _ (hm (x / 256 / 256 / 256 / 256 / 256 / 256 / 256))
  rw [hBM, Nat.shiftRight_eq_div_pow]
  have e64 : (2 : Nat) ^ 64 = 18446744073709551616 := by norm_num
  have e56 : (2 : Nat) ^ 56 = 72057594037927936 := by norm_num
  rw [e64, e56]
  exact mul_ones_sum _ _ _ _ _ _ _ _ h0 h1 h2 h3 h4 h5 h6 h7

lemma bitCount_mod256 (x : Nat) : bitCount x = bitCount (x % 256) + bitCount (x / 256) := by
  have h := bitCount_split 8 x
  norm_num at h
  exact h

lemma pcByte_eq_bitCount : ∀ y, y < 256 → pcByte y = bitCount y := by
  intro y hy
  rw [(pcByte_popcount y hy).1, setBelow_eq_bitCount_mod]
  congr 1
  have e8 : (2 : Nat) ^ 8 = 256 := by norm_num
  rw [e8]
  exact Nat.mod_eq_of_lt hy

lemma popcnt_64_eq (x : Nat) (hx : x < 2 ^ 64) : popcnt_64 x = bitCount x := by
  have e648 : (256 : Nat) ^ 8 = 2 ^ 64 := by norm_num
  have hx8 : x < 256 ^ 8 := by rw [e648]; exact hx
  have hr55 : (0x5555555555555555 : Nat) = repMask 0x55 8 := by norm_num [repMask]
  have hr33 : (0x3333333333333333 : Nat) = repMask 0x33 8 := by norm_num [repMask]
  have hr0f : (0x0f0f0f0f0f0f0f0f : Nat) = repMask 0x0f 8 := by norm_num [repMask]
  have hs1sub : x >>> 1 &&& 0x5555555555555555 ≤ x := by
    refine le_trans Nat.and_le_left ?_
    rw [Nat.shiftRight_eq_div_pow]
    exact Nat.div_le_self _ _
  have e1 : popcnt64_s1 x = byteMap pcF1 8 x := by
    unfold popcnt64_s1
    rw [sub64_eq_sub hs1sub hx, hr55]
    exact swar1_eq 8 x hx8
  have hx1lt : byteMap pcF1 8 x < 256 ^ 8 := byteMap_lt pcF1 pcF1_lt 8 x
  have e2 : popcnt64_s2 (byteMap pcF1 8 x) = byteMap pcF21 8 x := by
    unfold popcnt64_s2
    rw [hr33, swar2_eq 8 (byteMap pcF1 8 x) hx1lt,
      byteMap_comp pcF1 pcF2 pcF1_lt 8 x]
    have hlt : byteMap (fun a => pcF2 (pcF1 a)) 8 x < 2 ^ 64 := by
      rw [← e648]
      exact byteMap_lt _ (fun a ha => pcF21_lt a ha) 8 x
    rw [Nat.mod_eq_of_lt hlt]
    rfl
  have hx2lt : byteMap pcF21 8 x < 256 ^ 8 := byteMap_lt pcF21 pcF21_lt 8 x
  have hnib : ∀ k, byteMap pcF21 8 x / 256 ^ k % 256 % 16 ≤ 6 ∧
      byteMap pcF21 8 x / 256 ^ k % 256 / 16 ≤ 6 := by
    intro k
    rw [byteMap_byte pcF21 pcF21_lt 8 x k]
    by_cases hk : k < 8
    · rw [if_pos hk]
      exact pcF21_nibbles _ (Nat.mod_lt _ (by norm_num))
    · rw [if_neg hk]
      norm_num
  have e3 : popcnt64_s3 (byteMap pcF21 8 x) = byteMap pcByte 8 x := by
    unfold popcnt64_s3
    have hble : byteMap pcF21 8 x ≤ repMask 102 8 :=
      byteMap_le pcF21 102 (fun a _ => pcF2_le (pcF1 a)) 8 x
    have hrep102 : repMask 102 8 = 0x6666666666666666 := by norm_num [repMask]
    have hshr : byteMap pcF21 8 x >>> 4 = byteMap pcF21 8 x / 16 := by
      rw [Nat.shiftRight_eq_div_pow]
    have hmod : (byteMap pcF21 8 x + byteMap pcF21 8 x >>> 4) % 2 ^ 64 =
        byteMap pcF21 8 x + byteMap pcF21 8 x >>> 4 := by
      apply Nat.mod_eq_of_lt
      rw [hshr]
      have e64 : (2 : Nat) ^ 64 = 18446744073709551616 := by norm_num
      rw [e64]
      rw [hrep102] at hble
      omega
    rw [hmod, hr0f, swar3_eq 8 (byteMap pcF21 8 x) hx2lt hnib,
      byteMap_comp pcF21 pcF3 pcF21_lt 8 x]
    rfl
  have hfin : popcnt_64 x =
      ((byteMap pcByte 8 x * 0x0101010101010101) % 2 ^ 64) >>> 56 := by
    unfold popcnt_64
    rw [e1, e2, e3]
  rw [hfin, mul_ones_extract pcByte (fun a ha => (pcByte_popcount a ha).2) x]
  have hm : ∀ y : Nat, y % 256 < 256 := fun y => Nat.mod_lt _ (by norm_num)
  rw [pcByte_eq_bitCount _ (hm x), pcByte_eq_bitCount _ (hm (x / 256)),
    pcByte_eq_bitCount _ (hm (x / 256 / 256)),
    pcByte_eq_bitCount _ (hm (x / 256 / 256 / 256)),
    pcByte_eq_bitCount _ (hm (x / 256 / 256 / 256 / 256)),
    pcByte_eq_bitCount _ (hm (x / 256 / 256 / 256 / 256 / 256)),
    pcByte_eq_bitCount _ (hm (x / 256 / 256 / 256 / 256 / 256 / 256)),
    pcByte_eq_bitCount _ (hm (x / 256 / 256 / 256 / 256 / 256 / 256 / 256))]
  have hzero : x / 256 / 256 / 256 / 256 / 256 / 256 / 256 / 256 = 0 := by
    have hx' : x < 18446744073709551616 := by
      have e64 : (2 : Nat) ^ 64 = 18446744073709551616 := by norm_num
      rw [e64] at hx
      exact hx
    omega
  conv_rhs => rw [bitCount_mod256 x, bitCount_mod256 (x / 256),
    bitCount_mod256 (x / 256 / 256), bitCount_mod256 (x / 256 / 256 / 256),
    bitCount_mod256 (x / 256 / 256 / 256 / 256),
    bitCount_mod256 (x / 256 / 256 / 256 / 256 / 256),
    bitCount_mod256 (x / 256 / 256 / 256 / 256 / 256 / 256),
    bitCount_mod256 (x / 256 / 256 / 256 / 256 / 256 / 256 / 256)]
  rw [hzero]
  have hbc0 : bitCount 0 = 0 := by simp [bitCount]
  rw [hbc0]
  omega

/-- C9: the portable SWAR population-count fallback is correct: for every
64-bit `x`, `popcnt_64 x` equals the number of set bits of `x` (and hence
agrees with a native popcount instruction on every input). -/
theorem popcnt_64_correct (x : Nat) (hx : x < 2 ^ 64) : popcnt_64 x = bitCount x :=
  popcnt_64_eq x hx

theorem popcnt_64_correct_witness :
    (0x123456789ABCDEF0 : Nat) < 2 ^ 64 ∧
      popcnt_64 0x123456789ABCDEF0 = bitCount 0x123456789ABCDEF0 :=
  ⟨by norm_num, popcnt_64_correct 0x123456789ABCDEF0 (by norm_num)⟩

/-! The PDEP pre-masking expression, including the `popcount == 64`
wrap-around workaround. -/

lemma pdepPreMask_eq (a p : Nat) (ha : a < 2 ^ 64) (hp : p ≤ 64) :
    pdepPreMask a p = a % 2 ^ p := by
  rcases Nat.lt_or_ge p 64 with hlt | hge
  · have h2 : shl64 1 p = 2 ^ p := by
      unfold shl64
      rw [Nat.mod_eq_of_lt hlt, Nat.one_shiftLeft]
      exact Nat.mod_eq_of_lt (Nat.pow_lt_pow_right (by norm_num) hlt)
    have h3 : p >>> 6 = 0 := by
      rw [Nat.shiftRight_eq_div_pow]
      exact Nat.div_eq_of_lt (by norm_num; omega)
    have h4 : comp64 0 = 2 ^ 64 - 1 := Nat.zero_xor _
    have h5 : 2 ^ p &&& 2 ^ 64 - 1 = 2 ^ p := by
      rw [Nat.and_pow_two_sub_one_eq_mod]
      exact Nat.mod_eq_of_lt (Nat.pow_lt_pow_right (by norm_num) hlt)
    have h6 : sub64 (2 ^ p) 1 = 2 ^ p - 1 :=
      sub64_eq_sub (Nat.one_le_two_pow) (Nat.pow_lt_pow_right (by norm_num) hlt)
    show a &&& sub64 (shl64 1 p &&& comp64 (p >>> 6)) 1 = a % 2 ^ p
    rw [h2, h3, h4, h5, h6, Nat.and_pow_two_sub_one_eq_mod]
  · have hpe : p = 64 := by omega
    subst hpe
    show a &&& sub64 (shl64 1 64 &&& comp64 (64 >>> 6)) 1 = a % 2 ^ 64
    have h2 : shl64 1 64 &&& comp64 (64 >>> 6) = 0 := by decide
    have h6 : sub64 0 1 = 2 ^ 64 - 1 := by
      unfold sub64
      norm_num
    rw [h2, h6, Nat.and_pow_two_sub_one_eq_mod]

/-- C6: the portable PDEP pre-masking expression
`a & (((1 << p) & ~(p >> 6)) - 1)`, with 64-bit shifts taken modulo 64,
extracts exactly the low `p` bits of `a` for every `p` in 0..64; in
particular `p = 64` leaves `a` unmasked instead of clearing it. -/
theorem pdep_premask_correct (a p : Nat) (ha : a < 2 ^ 64) (hp : p ≤ 64) :
    pdepPreMask a p = a % 2 ^ p ∧ (p = 64 → pdepPreMask a p = a) := by
  refine ⟨pdepPreMask_eq a p ha hp, ?_⟩
  intro hp64
  rw [pdepPreMask_eq a p ha hp, hp64]
  exact Nat.mod_eq_of_lt ha

theorem pdep_premask_correct_witness :
    (0xABCDEF0123456789 : Nat) < 2 ^ 64 ∧ (64 : Nat) ≤ 64 ∧
      (pdepPreMask 0xABCDEF0123456789 64 = 0xABCDEF0123456789 % 2 ^ 64 ∧
        (64 = 64 → pdepPreMask 0xABCDEF0123456789 64 = 0xABCDEF0123456789)) :=
  ⟨by norm_num, by norm_num,
    pdep_premask_correct 0xABCDEF0123456789 64 (by norm_num) (by norm_num)⟩

/-! PDEP loop invariant.  Iteration `k` of the loop (processing plane
`i = 5 - k`) moves the bit destined for set mask position `b` from
`b - unsetBelow mask b % 2 ^ (i+1)` to `b - unsetBelow mask b % 2 ^ i`.
The shifted-backward plane evaluates, at the current position of that
bit, to digit `i` of its displacement count. -/

lemma pdep_bit_at_witness {mask : Nat} (hm : mask < 2 ^ 64) (i b : Nat)
    (hb64 : b < 64) (hmb : mask.testBit b = true) :
    ((zp7_ppp_64 mask).ppp_bit i >>> 2 ^ i).testBit
        (b - unsetBelow mask b % 2 ^ (i + 1)) =
      (unsetBelow mask b).testBit i := by
  rw [Nat.testBit_shiftRight]
  have hcle : unsetBelow mask b ≤ b := unsetBelow_le mask b
  cases hdig : (unsetBelow mask b).testBit i
  · have hmod := mod_pow_succ_of_digit_false hdig
    rw [hmod]
    by_cases hlt : 2 ^ i + (b - unsetBelow mask b % 2 ^ i) < 64
    · rw [ppp_bit_testBit hm i hlt, Nat.add_comm, digit_shiftFwd i hmb, hdig]
    · exact testBit_false_of_lt (ppp_bit_lt mask i) (by omega)
  · have hmod := mod_pow_succ_of_digit_true hdig
    have h2i : unsetBelow mask b % 2 ^ i + 2 ^ i ≤ unsetBelow mask b := by
      have := Nat.mod_le (unsetBelow mask b) (2 ^ (i + 1))
      omega
    have heq : 2 ^ i + (b - unsetBelow mask b % 2 ^ (i + 1)) =
        b - unsetBelow mask b % 2 ^ i := by omega
    rw [heq, ppp_bit_testBit hm i (by omega), digit_shiftBack mask i b, hdig]

lemma pdep_step_disjoint {mask a0 : Nat} (hm : mask < 2 ^ 64) (i : Nat)
    (st : Nat) (hst : st < 2 ^ 64)
    (hchar : ∀ q, st.testBit q = true ↔ ∃ b, b < 64 ∧ mask.testBit b = true ∧
      a0.testBit (setBelow mask b) = true ∧ b - unsetBelow mask b % 2 ^ (i + 1) = q) :
    ((st &&& comp64 ((zp7_ppp_64 mask).ppp_bit i >>> 2 ^ i)) &&&
        ((st &&& ((zp7_ppp_64 mask).ppp_bit i >>> 2 ^ i)) <<< 2 ^ i) = 0) ∧
      (st &&& ((zp7_ppp_64 mask).ppp_bit i >>> 2 ^ i)) <<< 2 ^ i < 2 ^ 64 := by
  have hBlt : (zp7_ppp_64 mask).ppp_bit i >>> 2 ^ i < 2 ^ 64 := by
    calc (zp7_ppp_64 mask).ppp_bit i >>> 2 ^ i ≤ (zp7_ppp_64 mask).ppp_bit i := by
          rw [Nat.shiftRight_eq_div_pow]
          exact Nat.div_le_self _ _
      _ < 2 ^ 64 := ppp_bit_lt mask i
  have hY : ∀ j, ((st &&& ((zp7_ppp_64 mask).ppp_bit i >>> 2 ^ i)) <<< 2 ^ i).testBit j =
      true → j < 64 := by
    intro j hj
    rw [Nat.testBit_shiftLeft, Bool.and_eq_true, Nat.testBit_and, Bool.and_eq_true,
      decide_eq_true_eq] at hj
    obtain ⟨hij, hstj, hbitj⟩ := hj
    obtain ⟨b, hb64, hmb, hab, hpos⟩ := (hchar (j - 2 ^ i)).mp hstj
    rw [← hpos, pdep_bit_at_witness hm i b hb64 hmb] at hbitj
    have hmod := mod_pow_succ_of_digit_true hbitj
    have hcle : unsetBelow mask b ≤ b := unsetBelow_le mask b
    have h2i : unsetBelow mask b % 2 ^ i + 2 ^ i ≤ unsetBelow mask b := by
      have := Nat.mod_le (unsetBelow mask b) (2 ^ (i + 1))
      omega
    omega
  constructor
  · apply Nat.eq_of_testBit_eq
    intro j
    rw [Nat.testBit_and, Nat.zero_testBit]
    by_contra hcontra
    have hboth : (st &&& comp64 ((zp7_ppp_64 mask).ppp_bit i >>> 2 ^ i)).testBit j = true ∧
        ((st &&& ((zp7_ppp_64 mask).ppp_bit i >>> 2 ^ i)) <<< 2 ^ i).testBit j = true := by
      revert hcontra
      cases hx : (st &&& comp64 ((zp7_ppp_64 mask).ppp_bit i >>> 2 ^ i)).testBit j <;>
        cases hy : ((st &&& ((zp7_ppp_64 mask).ppp_bit i >>> 2 ^ i)) <<< 2 ^ i).testBit j <;>
        simp
    obtain ⟨hXj, hYj⟩ := hboth
    have hj64 : j < 64 := hY j hYj
    rw [Nat.testBit_and, Bool.and_eq_true, comp64_testBit hBlt, Bool.and_eq_true,
      Bool.not_eq_true'] at hXj
    obtain ⟨hstj, _, hbitj⟩ := hXj
    rw [Nat.testBit_shiftLeft, Bool.and_eq_true, Nat.testBit_and, Bool.and_eq_true,
      decide_eq_true_eq] at hYj
    obtain ⟨hij, hstj2, hbitj2⟩ := hYj
    -- stationary witness
    obtain ⟨b, hb64, hmb, hab, hpos⟩ := (hchar j).mp hstj
    rw [← hpos, pdep_bit_at_witness hm i b hb64 hmb] at hbitj
    -- moving witness
    obtain ⟨b2, hb264, hmb2, hab2, hpos2⟩ := (hchar (j - 2 ^ i)).mp hstj2
    rw [← hpos2, pdep_bit_at_witness hm i b2 hb264 hmb2] at hbitj2
    -- both bits currently sit at position `j`, which must carry digit `i`
    -- of both counts at once: contradiction
    have hcle : unsetBelow mask b ≤ b := unsetBelow_le mask b
    have hcle2 : unsetBelow mask b2 ≤ b2 := unsetBelow_le mask b2
    have hmod := mod_pow_succ_of_digit_false hbitj
    have hmod2 := mod_pow_succ_of_digit_true hbitj2
    have h2i2 : unsetBelow mask b2 % 2 ^ i + 2 ^ i ≤ unsetBelow mask b2 := by
      have := Nat.mod_le (unsetBelow mask b2) (2 ^ (i + 1))
      omega
    have hpeq : b - unsetBelow mask b % 2 ^ i = b2 - unsetBelow mask b2 % 2 ^ i := by
      omega
    have hd1 := digit_shiftBack mask i b
    have hd2 := digit_shiftBack mask i b2
    rw [hpeq, hd2] at hd1
    rw [hbitj, hbitj2] at hd1
    simp at hd1
  · exact Nat.lt_pow_two_of_testBit _ fun j hj => by
      by_contra hc
      have hj' : ((st &&& ((zp7_ppp_64 mask).ppp_bit i >>> 2 ^ i)) <<< 2 ^ i).testBit j
          = true := by
        revert hc
        cases ((st &&& ((zp7_ppp_64 mask).ppp_bit i >>> 2 ^ i)) <<< 2 ^ i).testBit j <;> simp
      have := hY j hj'
      omega

lemma pdep_step_inv {mask a0 : Nat} (hm : mask < 2 ^ 64) (i : Nat)
    (st : Nat) (hst : st < 2 ^ 64)
    (hchar : ∀ q, st.testBit q = true ↔ ∃ b, b < 64 ∧ mask.testBit b = true ∧
      a0.testBit (setBelow mask b) = true ∧ b - unsetBelow mask b % 2 ^ (i + 1) = q) :
    pdepStep (zp7_ppp_64 mask) i st < 2 ^ 64 ∧
    ∀ q, (pdepStep (zp7_ppp_64 mask) i st).testBit q = true ↔
      ∃ b, b < 64 ∧ mask.testBit b = true ∧
        a0.testBit (setBelow mask b) = true ∧ b - unsetBelow mask b % 2 ^ i = q := by
  obtain ⟨hdisj, hYlt⟩ := pdep_step_disjoint hm i st hst hchar
  have hBlt : (zp7_ppp_64 mask).ppp_bit i >>> 2 ^ i < 2 ^ 64 := by
    calc (zp7_ppp_64 mask).ppp_bit i >>> 2 ^ i ≤ (zp7_ppp_64 mask).ppp_bit i := by
          rw [Nat.shiftRight_eq_div_pow]
          exact Nat.div_le_self _ _
      _ < 2 ^ 64 := ppp_bit_lt mask i
  have hsh : (1 : Nat) <<< i = 2 ^ i := Nat.one_shiftLeft i
  have hstep : pdepStep (zp7_ppp_64 mask) i st =
      ((st &&& comp64 ((zp7_ppp_64 mask).ppp_bit i >>> 2 ^ i)) +
        (((st &&& ((zp7_ppp_64 mask).ppp_bit i >>> 2 ^ i)) <<< 2 ^ i) % 2 ^ 64)) % 2 ^ 64 := by
    unfold pdepStep
    rw [hsh]
  have hXlt : st &&& comp64 ((zp7_ppp_64 mask).ppp_bit i >>> 2 ^ i) < 2 ^ 64 :=
    lt_of_le_of_lt Nat.and_le_left hst
  have hor : (st &&& comp64 ((zp7_ppp_64 mask).ppp_bit i >>> 2 ^ i)) |||
      ((st &&& ((zp7_ppp_64 mask).ppp_bit i >>> 2 ^ i)) <<< 2 ^ i) < 2 ^ 64 :=
    Nat.or_lt_two_pow hXlt hYlt
  have hstep2 : pdepStep (zp7_ppp_64 mask) i st =
      (st &&& comp64 ((zp7_ppp_64 mask).ppp_bit i >>> 2 ^ i)) |||
        ((st &&& ((zp7_ppp_64 mask).ppp_bit i >>> 2 ^ i)) <<< 2 ^ i) := by
    rw [hstep, Nat.mod_eq_of_lt hYlt, add_eq_lor_of_and_eq_zero _ _ hdisj,
      Nat.mod_eq_of_lt hor]
  refine ⟨by rw [hstep2]; exact hor, ?_⟩
  intro q
  rw [hstep2, Nat.testBit_or, Bool.or_eq_true, Nat.testBit_and, Bool.and_eq_true,
    comp64_testBit hBlt, Bool.and_eq_true, Bool.not_eq_true', decide_eq_true_eq,
    Nat.testBit_shiftLeft, Bool.and_eq_true, decide_eq_true_eq, Nat.testBit_and,
    Bool.and_eq_true]
  constructor
  · rintro (⟨hstq, hq64, hBq⟩ | ⟨hiq, hstq, hBq⟩)
    · -- stationary bit: digit `i` of its count is 0
      obtain ⟨b, hb64, hmb, hab, hpos⟩ := (hchar q).mp hstq
      rw [← hpos, pdep_bit_at_witness hm i b hb64 hmb] at hBq
      have hmod := mod_pow_succ_of_digit_false hBq
      refine ⟨b, hb64, hmb, hab, ?_⟩
      rw [← hmod]
      exact hpos
    · -- moving bit: digit `i` of its count is 1
      obtain ⟨b, hb64, hmb, hab, hpos⟩ := (hchar (q - 2 ^ i)).mp hstq
      rw [← hpos, pdep_bit_at_witness hm i b hb64 hmb] at hBq
      have hmod := mod_pow_succ_of_digit_true hBq
      have hcle : unsetBelow mask b ≤ b := unsetBelow_le mask b
      have h2i : unsetBelow mask b % 2 ^ i + 2 ^ i ≤ unsetBelow mask b := by
        have := Nat.mod_le (unsetBelow mask b) (2 ^ (i + 1))
        omega
      refine ⟨b, hb64, hmb, hab, ?_⟩
      omega
  · rintro ⟨b, hb64, hmb, hab, hpos⟩
    have hcle : unsetBelow mask b ≤ b := unsetBelow_le mask b
    cases hdig : (unsetBelow mask b).testBit i
    · left
      have hmod := mod_pow_succ_of_digit_false hdig
      have hq64 : q < 64 := by omega
      have hpos' : b - unsetBelow mask b % 2 ^ (i + 1) = q := by omega
      refine ⟨(hchar q).mpr ⟨b, hb64, hmb, hab, hpos'⟩, hq64, ?_⟩
      rw [← hpos', pdep_bit_at_witness hm i b hb64 hmb]
      exact hdig
    · right
      have hmod := mod_pow_succ_of_digit_true hdig
      have h2i : unsetBelow mask b % 2 ^ i + 2 ^ i ≤ unsetBelow mask b := by
        have := Nat.mod_le (unsetBelow mask b) (2 ^ (i + 1))
        omega
      have hiq : 2 ^ i ≤ q := by omega
      have hpos' : b - unsetBelow mask b % 2 ^ (i + 1) = q - 2 ^ i := by omega
      refine ⟨hiq, (hchar (q - 2 ^ i)).mpr ⟨b, hb64, hmb, hab, hpos'⟩, ?_⟩
      rw [← hpos', pdep_bit_at_witness hm i b hb64 hmb]
      exact hdig

lemma pdep_inv {mask : Nat} (a0 : Nat) (hm : mask < 2 ^ 64) (ha0 : a0 < 2 ^ 64)
    (h0 : ∀ q, a0.testBit q = true →
      ∃ b, b < 64 ∧ mask.testBit b = true ∧ setBelow mask b = q) :
    ∀ k, k ≤ 6 → pdepIter (zp7_ppp_64 mask) a0 k < 2 ^ 64 ∧
      ∀ q, (pdepIter (zp7_ppp_64 mask) a0 k).testBit q = true ↔
        ∃ b, b < 64 ∧ mask.testBit b = true ∧
          a0.testBit (setBelow mask b) = true ∧
          b - unsetBelow mask b % 2 ^ (6 - k) = q := by
  intro k
  induction k with
  | zero =>
    intro _
    refine ⟨ha0, ?_⟩
    intro q
    constructor
    · intro hq
      obtain ⟨b, hb64, hmb, hrank⟩ := h0 q hq
      refine ⟨b, hb64, hmb, by rw [hrank]; exact hq, ?_⟩
      have h3 := setBelow_add_unsetBelow mask b
      have hcb : unsetBelow mask b ≤ b := unsetBelow_le mask b
      have hmod : unsetBelow mask b % 2 ^ (6 - 0) = unsetBelow mask b :=
        Nat.mod_eq_of_lt (by norm_num; omega)
      rw [hmod]
      omega
    · rintro ⟨b, hb64, hmb, hab, hpos⟩
      have h3 := setBelow_add_unsetBelow mask b
      have hcb : unsetBelow mask b ≤ b := unsetBelow_le mask b
      have hmod : unsetBelow mask b % 2 ^ (6 - 0) = unsetBelow mask b :=
        Nat.mod_eq_of_lt (by norm_num; omega)
      rw [hmod] at hpos
      have hrq : setBelow mask b = q := by omega
      rw [← hrq]
      exact hab
  | succ k ih =>
    intro hk
    obtain ⟨hlt, hchar⟩ := ih (by omega)
    have he : 6 - k = (5 - k) + 1 := by omega
    rw [he] at hchar
    have hstep := pdep_step_inv hm (5 - k) _ hlt hchar
    have hit : pdepIter (zp7_ppp_64 mask) a0 (k + 1) =
        pdepStep (zp7_ppp_64 mask) (5 - k) (pdepIter (zp7_ppp_64 mask) a0 k) := rfl
    have he2 : 6 - (k + 1) = 5 - k := by omega
    rw [hit, he2]
    exact hstep

lemma pdep_state_char (a mask : Nat) (ha : a < 2 ^ 64) (hm : mask < 2 ^ 64) :
    ∀ k, k ≤ 6 →
      pdepIter (zp7_ppp_64 mask) (pdepPreMask a (popcnt_64 mask)) k < 2 ^ 64 ∧
      ∀ q, (pdepIter (zp7_ppp_64 mask) (pdepPreMask a (popcnt_64 mask)) k).testBit q
          = true ↔
        ∃ b, b < 64 ∧ mask.testBit b = true ∧
          (a % 2 ^ setBelow mask 64).testBit (setBelow mask b) = true ∧
          b - unsetBelow mask b % 2 ^ (6 - k) = q := by
  have hP : popcnt_64 mask = setBelow mask 64 := by
    rw [popcnt_64_eq mask hm, bitCount_eq_setBelow hm]
  have ha' : pdepPreMask a (popcnt_64 mask) = a % 2 ^ setBelow mask 64 := by
    rw [hP]
    exact pdepPreMask_eq a _ ha (setBelow_le mask 64)
  have ha0lt : a % 2 ^ setBelow mask 64 < 2 ^ 64 := lt_of_le_of_lt (Nat.mod_le _ _) ha
  have h0 : ∀ j, (a % 2 ^ setBelow mask 64).testBit j = true →
      ∃ b, b < 64 ∧ mask.testBit b = true ∧ setBelow mask b = j := by
    intro j hj
    rw [Nat.testBit_mod_two_pow, Bool.and_eq_true, decide_eq_true_eq] at hj
    exact setBelow_surj mask 64 j hj.1
  intro k hk
  rw [ha']
  exact pdep_inv (a % 2 ^ setBelow mask 64) hm ha0lt h0 k hk

lemma zp7_pdep_64_char (a mask : Nat) (ha : a < 2 ^ 64) (hm : mask < 2 ^ 64) (q : Nat) :
    (zp7_pdep_64 a mask).testBit q = true ↔
      q < 64 ∧ mask.testBit q = true ∧ a.testBit (setBelow mask q) = true := by
  have hdef : zp7_pdep_64 a mask =
      pdepIter (zp7_ppp_64 mask) (pdepPreMask a (popcnt_64 mask)) 6 := rfl
  have hinv := (pdep_state_char a mask ha hm 6 (by norm_num)).2 q
  rw [hdef, hinv]
  constructor
  · rintro ⟨b, hb64, hmb, hab, hpos⟩
    have hbq : b = q := by
      have h1 : unsetBelow mask b % 2 ^ (6 - 6) = 0 := by
        simp [Nat.mod_one]
      omega
    subst hbq
    refine ⟨hb64, hmb, ?_⟩
    rw [Nat.testBit_mod_two_pow, Bool.and_eq_true] at hab
    exact hab.2
  · rintro ⟨hq64, hmq, haq⟩
    refine ⟨q, hq64, hmq, ?_, by simp [Nat.mod_one]⟩
    rw [Nat.testBit_mod_two_pow]
    have hrk : setBelow mask q < setBelow mask 64 := setBelow_lt_of_testBit hq64 hmq
    simp [hrk, haq]

lemma pdepRefAux_lt (a mask : Nat) : ∀ n, pdepRefAux a mask n < 2 ^ n := by
  intro n
  induction n with
  | zero => simp [pdepRefAux]
  | succ n ih =>
    show pdepRefAux a mask n +
        (if mask.testBit n && a.testBit (setBelow mask n) then 2 ^ n else 0) < 2 ^ (n + 1)
    have hpow : (2 : Nat) ^ (n + 1) = 2 ^ n + 2 ^ n := by rw [pow_succ]; omega
    split <;> omega

lemma pdepRefAux_testBit (a mask : Nat) :
    ∀ n q, (pdepRefAux a mask n).testBit q = true ↔
      q < n ∧ mask.testBit q = true ∧ a.testBit (setBelow mask q) = true := by
  intro n
  induction n with
  | zero =>
    intro q
    simp [pdepRefAux]
  | succ n ih =>
    intro q
    have hstep : pdepRefAux a mask (n + 1) = pdepRefAux a mask n +
        (if mask.testBit n && a.testBit (setBelow mask n) then 2 ^ n else 0) := rfl
    rw [hstep]
    cases hcond : (mask.testBit n && a.testBit (setBelow mask n))
    · rw [if_neg (by simp [hcond]), Nat.add_zero, ih q]
      constructor
      · rintro ⟨hq, h1, h2⟩
        exact ⟨by omega, h1, h2⟩
      · rintro ⟨hq, h1, h2⟩
        rcases Nat.lt_or_ge q n with hqn | hqn
        · exact ⟨hqn, h1, h2⟩
        · have hqn' : q = n := by omega
          subst hqn'
          rw [h1, h2] at hcond
          exact absurd hcond (by simp)
    · rw [Bool.and_eq_true] at hcond
      obtain ⟨hmn, han⟩ := hcond
      rw [if_pos (by simp [hmn, han]),
        testBit_add_two_pow n (pdepRefAux_lt a mask n) q, Bool.or_eq_true,
        decide_eq_true_eq, ih q]
      constructor
      · rintro (hqn | ⟨hq, h1, h2⟩)
        · subst hqn
          exact ⟨by omega, hmn, han⟩
        · exact ⟨by omega, h1, h2⟩
      · rintro ⟨hq, h1, h2⟩
        rcases Nat.lt_or_ge q n with hqn | hqn
        · exact Or.inr ⟨hqn, h1, h2⟩
        · exact Or.inl (by omega)

lemma pdepRef_testBit (a mask q : Nat) :
    (pdepRef a mask).testBit q = true ↔
      q < 64 ∧ mask.testBit q = true ∧ a.testBit (setBelow mask q) = true :=
  pdepRefAux_testBit a mask 64 q

/-- C2: for every 64-bit input `a` and every 64-bit mask, `zp7_pdep_64`
computes the reference PDEP result: the low `popcount mask` bits of `a`
distributed in order into the set positions of the mask, and every output
bit at a position where the mask is unset is zero. -/
theorem zp7_pdep_64_correct (a mask : Nat) (ha : a < 2 ^ 64) (hm : mask < 2 ^ 64) :
    zp7_pdep_64 a mask = pdepRef a mask ∧
      ∀ j, mask.testBit j = false → (zp7_pdep_64 a mask).testBit j = false := by
  constructor
  · apply Nat.eq_of_testBit_eq
    intro q
    exact bool_eq_of_iff
      ((zp7_pdep_64_char a mask ha hm q).trans (pdepRef_testBit a mask q).symm)
  · intro j hj
    cases hres : (zp7_pdep_64 a mask).testBit j
    · rfl
    · obtain ⟨_, hmq, _⟩ := (zp7_pdep_64_char a mask ha hm j).mp hres
      rw [hj] at hmq
      exact absurd hmq (by simp)

theorem zp7_pdep_64_correct_witness :
    (0x00000000FFFFFFFF : Nat) < 2 ^ 64 ∧ (0x0F0F0F0F0F0F0F0F : Nat) < 2 ^ 64 ∧
      (zp7_pdep_64 0x00000000FFFFFFFF 0x0F0F0F0F0F0F0F0F =
          pdepRef 0x00000000FFFFFFFF 0x0F0F0F0F0F0F0F0F ∧
        ∀ j, (0x0F0F0F0F0F0F0F0F : Nat).testBit j = false →
          (zp7_pdep_64 0x00000000FFFFFFFF 0x0F0F0F0F0F0F0F0F).testBit j = false) :=
  ⟨by norm_num, by norm_num,
    zp7_pdep_64_correct 0x00000000FFFFFFFF 0x0F0F0F0F0F0F0F0F (by norm_num) (by norm_num)⟩

/-- C8: in the PDEP shift loop, at every iteration (index `i = 5 - k` in
descending order) on a state reached from a pre-masked input and a PPP
structure built by `zp7_ppp_64`, the stationary term `a & ~bit` and the
moving term `(a & bit) << (1 << i)` share no set bit, so their sum equals
their bitwise OR. -/
theorem pdep_add_no_carry (a mask : Nat) (ha : a < 2 ^ 64) (hm : mask < 2 ^ 64)
    (k : Nat) (hk : k < 6) :
    ((pdepIter (zp7_ppp_64 mask) (pdepPreMask a (popcnt_64 mask)) k &&&
        comp64 ((zp7_ppp_64 mask).ppp_bit (5 - k) >>> (1 <<< (5 - k)))) &&&
      ((pdepIter (zp7_ppp_64 mask) (pdepPreMask a (popcnt_64 mask)) k &&&
          ((zp7_ppp_64 mask).ppp_bit (5 - k) >>> (1 <<< (5 - k)))) <<< (1 <<< (5 - k)))
        = 0) ∧
    (pdepIter (zp7_ppp_64 mask) (pdepPreMask a (popcnt_64 mask)) k &&&
        comp64 ((zp7_ppp_64 mask).ppp_bit (5 - k) >>> (1 <<< (5 - k)))) +
      ((pdepIter (zp7_ppp_64 mask) (pdepPreMask a (popcnt_64 mask)) k &&&
          ((zp7_ppp_64 mask).ppp_bit (5 - k) >>> (1 <<< (5 - k)))) <<< (1 <<< (5 - k))) =
    (pdepIter (zp7_ppp_64 mask) (pdepPreMask a (popcnt_64 mask)) k &&&
        comp64 ((zp7_ppp_64 mask).ppp_bit (5 - k) >>> (1 <<< (5 - k)))) |||
      ((pdepIter (zp7_ppp_64 mask) (pdepPreMask a (popcnt_64 mask)) k &&&
          ((zp7_ppp_64 mask).ppp_bit (5 - k) >>> (1 <<< (5 - k)))) <<< (1 <<< (5 - k))) := by
  obtain ⟨hlt, hchar⟩ := pdep_state_char a mask ha hm k (by omega)
  have he : 6 - k = (5 - k) + 1 := by omega
  rw [he] at hchar
  have hd := pdep_step_disjoint hm (5 - k) _ hlt hchar
  rw [Nat.one_shiftLeft]
  exact ⟨hd.1, add_eq_lor_of_and_eq_zero _ _ hd.1⟩

theorem pdep_add_no_carry_witness :
    (0xFFFFFFFFFFFFFFFF : Nat) < 2 ^ 64 ∧ (0xDEADBEEFDEADBEEF : Nat) < 2 ^ 64 ∧
      (2 : Nat) < 6 ∧
      (((pdepIter (zp7_ppp_64 0xDEADBEEFDEADBEEF)
            (pdepPreMask 0xFFFFFFFFFFFFFFFF (popcnt_64 0xDEADBEEFDEADBEEF)) 2 &&&
          comp64 ((zp7_ppp_64 0xDEADBEEFDEADBEEF).ppp_bit (5 - 2) >>> (1 <<< (5 - 2)))) &&&
        ((pdepIter (zp7_ppp_64 0xDEADBEEFDEADBEEF)
            (pdepPreMask 0xFFFFFFFFFFFFFFFF (popcnt_64 0xDEADBEEFDEADBEEF)) 2 &&&
            ((zp7_ppp_64 0xDEADBEEFDEADBEEF).ppp_bit (5 - 2) >>> (1 <<< (5 - 2)))) <<<
          (1 <<< (5 - 2))) = 0) ∧
      (pdepIter (zp7_ppp_64 0xDEADBEEFDEADBEEF)
          (pdepPreMask 0xFFFFFFFFFFFFFFFF (popcnt_64 0xDEADBEEFDEADBEEF)) 2 &&&
          comp64 ((zp7_ppp_64 0xDEADBEEFDEADBEEF).ppp_bit (5 - 2) >>> (1 <<< (5 - 2)))) +
        ((pdepIter (zp7_ppp_64 0xDEADBEEFDEADBEEF)
            (pdepPreMask 0xFFFFFFFFFFFFFFFF (popcnt_64 0xDEADBEEFDEADBEEF)) 2 &&&
            ((zp7_ppp_64 0xDEADBEEFDEADBEEF).ppp_bit (5 - 2) >>> (1 <<< (5 - 2)))) <<<
          (1 <<< (5 - 2))) =
      (pdepIter (zp7_ppp_64 0xDEADBEEFDEADBEEF)
          (pdepPreMask 0xFFFFFFFFFFFFFFFF (popcnt_64 0xDEADBEEFDEADBEEF)) 2 &&&
          comp64 ((zp7_ppp_64 0xDEADBEEFDEADBEEF).ppp_bit (5 - 2) >>> (1 <<< (5 - 2)))) |||
        ((pdepIter (zp7_ppp_64 0xDEADBEEFDEADBEEF)
            (pdepPreMask 0xFFFFFFFFFFFFFFFF (popcnt_64 0xDEADBEEFDEADBEEF)) 2 &&&
            ((zp7_ppp_64 0xDEADBEEFDEADBEEF).ppp_bit (5 - 2) >>> (1 <<< (5 - 2)))) <<<
          (1 <<< (5 - 2)))) :=
  ⟨by norm_num, by norm_num, by norm_num,
    pdep_add_no_carry 0xFFFFFFFFFFFFFFFF 0xDEADBEEFDEADBEEF
      (by norm_num) (by norm_num) 2 (by norm_num)⟩

/-- C4: idempotent round trip: if `v` only has bits at mask positions
(`v &&& mask = v`), then scattering the gathered value restores `v`. -/
theorem pdep_pext_roundtrip (v mask : Nat) (hv : v < 2 ^ 64) (hm : mask < 2 ^ 64)
    (hsub : v &&& mask = v) :
    zp7_pdep_64 (zp7_pext_64 v mask) mask = v := by
  have hpext_lt : zp7_pext_64 v mask < 2 ^ 64 := (pext_inv v mask hm 6).1
  apply Nat.eq_of_testBit_eq
  intro q
  apply bool_eq_of_iff
  rw [zp7_pdep_64_char _ mask hpext_lt hm q]
  constructor
  · rintro ⟨hq64, hmq, hE⟩
    obtain ⟨b, hb64, hmb, hvb, hrank⟩ := (zp7_pext_64_char v mask hm _).mp hE
    have hbq : b = q := by
      rcases lt_trichotomy b q with h | h | h
      · have := setBelow_lt_of_testBit h hmb
        omega
      · exact h
      · have := setBelow_lt_of_testBit h hmq
        omega
    subst hbq
    exact hvb
  · intro hvq
    have hmq : mask.testBit q = true := by
      have h := Nat.testBit_and v mask q
      rw [hsub, hvq] at h
      cases hcase : mask.testBit q
      · rw [hcase] at h
        exact absurd h.symm (by simp)
      · rfl
    have hq64 : q < 64 := by
      by_contra hq
      rw [testBit_false_of_lt hv (by omega)] at hvq
      exact Bool.false_ne_true hvq
    exact ⟨hq64, hmq, (zp7_pext_64_char v mask hm _).mpr ⟨q, hq64, hmq, hvq, rfl⟩⟩

theorem pdep_pext_roundtrip_witness :
    (0x0a0b0c0d00000000 : Nat) < 2 ^ 64 ∧ (0xFFFFFFFF00000000 : Nat) < 2 ^ 64 ∧
      (0x0a0b0c0d00000000 : Nat) &&& 0xFFFFFFFF00000000 = 0x0a0b0c0d00000000 ∧
      zp7_pdep_64 (zp7_pext_64 0x0a0b0c0d00000000 0xFFFFFFFF00000000)
        0xFFFFFFFF00000000 = 0x0a0b0c0d00000000 :=
  ⟨by norm_num, by norm_num, by decide,
    pdep_pext_roundtrip 0x0a0b0c0d00000000 0xFFFFFFFF00000000
      (by norm_num) (by norm_num) (by decide)⟩

/-- C5: packing inverse: gathering a scattered value truncates it to its
low `popcount mask` bits; with `popcount mask = 64` there is no
truncation and the value is returned unchanged. -/
theorem pext_pdep_roundtrip (v mask : Nat) (hv : v < 2 ^ 64) (hm : mask < 2 ^ 64) :
    zp7_pext_64 (zp7_pdep_64 v mask) mask = v % 2 ^ bitCount mask ∧
      (bitCount mask = 64 → zp7_pext_64 (zp7_pdep_64 v mask) mask = v) := by
  have hmain : zp7_pext_64 (zp7_pdep_64 v mask) mask = v % 2 ^ setBelow mask 64 := by
    apply Nat.eq_of_testBit_eq
    intro q
    apply bool_eq_of_iff
    rw [zp7_pext_64_char _ mask hm q]
    constructor
    · rintro ⟨b, hb64, hmb, hDb, hrank⟩
      obtain ⟨_, _, hvrank⟩ := (zp7_pdep_64_char v mask hv hm b).mp hDb
      rw [Nat.testBit_mod_two_pow, ← hrank]
      have hlt : setBelow mask b < setBelow mask 64 := setBelow_lt_of_testBit hb64 hmb
      simp [hlt, hvrank]
    · intro hq
      rw [Nat.testBit_mod_two_pow, Bool.and_eq_true, decide_eq_true_eq] at hq
      obtain ⟨hqP, hvq⟩ := hq
      obtain ⟨b, hb64, hmb, hrank⟩ := setBelow_surj mask 64 q hqP
      refine ⟨b, hb64, hmb, ?_, hrank⟩
      exact (zp7_pdep_64_char v mask hv hm b).mpr
        ⟨hb64, hmb, by rw [hrank]; exact hvq⟩
  refine ⟨by rw [bitCount_eq_setBelow hm]; exact hmain, ?_⟩
  intro h64
  rw [bitCount_eq_setBelow hm] at h64
  rw [hmain, h64]
  exact Nat.mod_eq_of_lt hv

theorem pext_pdep_roundtrip_witness :
    (0x123456789ABCDEF0 : Nat) < 2 ^ 64 ∧ (0xF0F0F0F0F0F0F0F0 : Nat) < 2 ^ 64 ∧
      (zp7_pext_64 (zp7_pdep_64 0x123456789ABCDEF0 0xF0F0F0F0F0F0F0F0)
          0xF0F0F0F0F0F0F0F0 =
        0x123456789ABCDEF0 % 2 ^ bitCount 0xF0F0F0F0F0F0F0F0 ∧
      (bitCount 0xF0F0F0F0F0F0F0F0 = 64 →
        zp7_pext_64 (zp7_pdep_64 0x123456789ABCDEF0 0xF0F0F0F0F0F0F0F0)
          0xF0F0F0F0F0F0F0F0 = 0x123456789ABCDEF0)) :=
  ⟨by norm_num, by norm_num,
    pext_pdep_roundtrip 0x123456789ABCDEF0 0xF0F0F0F0F0F0F0F0
      (by norm_num) (by norm_num)⟩

/-! Equivalence of the carry-less-multiply form of the prefix XOR with
the shift-XOR form: multiplying by the bit pattern of `-2` XORs together
all strictly-lower bit positions. -/

lemma neg2_testBit (j : Nat) : (2 ^ 64 - 2 : Nat).testBit j = decide (1 ≤ j ∧ j < 64) := by
  have h2 : (2 ^ 64 - 2 : Nat) = 2 * (2 ^ 63 - 1) := by norm_num
  cases j with
  | zero =>
    rw [h2, Nat.testBit_zero, Nat.mul_mod_right]
    simp
  | succ j =>
    rw [h2, Nat.testBit_succ, Nat.mul_div_cancel_left _ (by norm_num : 0 < 2),
      Nat.testBit_two_pow_sub_one]
    by_cases hj : j < 63 <;> simp [hj] <;> omega

lemma clmulAux_neg2_window (x : Nat) :
    ∀ j, 1 ≤ j → j ≤ 64 →
      ∀ b, (clmulAux x (2 ^ 64 - 2) j).testBit b =
        (parBelow x b).xor (parBelow x (b + 1 - j)) := by
  intro j
  induction j with
  | zero => intro h; exact absurd h (by norm_num)
  | succ j ih =>
    intro _ hj64 b
    rcases Nat.eq_zero_or_pos j with hj0 | hjpos
    · subst hj0
      have hy0 : (2 ^ 64 - 2 : Nat).testBit 0 = false := by
        rw [neg2_testBit]
        simp
      show (clmulAux x (2 ^ 64 - 2) 0 ^^^
          (if (2 ^ 64 - 2 : Nat).testBit 0 then x <<< 0 else 0)).testBit b = _
      rw [hy0]
      simp [clmulAux]
    · have hstep : clmulAux x (2 ^ 64 - 2) (j + 1) = clmulAux x (2 ^ 64 - 2) j ^^^
        (if (2 ^ 64 - 2 : Nat).testBit j then x <<< j else 0) := rfl
      have hyj : (2 ^ 64 - 2 : Nat).testBit j = true := by
        rw [neg2_testBit]
        simp only [decide_eq_true_eq]
        omega
      rw [hstep, hyj, if_pos rfl, Nat.testBit_xor, ih hjpos (by omega) b,
        Nat.testBit_shiftLeft]
      by_cases hjb : j ≤ b
      · have he : b + 1 - j = (b - j) + 1 := by omega
        have hp : parBelow x ((b - j) + 1) = (parBelow x (b - j)).xor (x.testBit (b - j)) :=
          rfl
        have he2 : b + 1 - (j + 1) = b - j := by omega
        rw [he, hp, he2]
        simp only [hjb, decide_true_eq_true]
        generalize parBelow x b = A
        generalize parBelow x (b - j) = B
        cases A <;> cases B <;> cases x.testBit (b - j) <;> rfl
      · have he : b + 1 - j = 0 := by omega
        have he2 : b + 1 - (j + 1) = 0 := by omega
        rw [he, he2]
        simp [hjb]

lemma clmul_neg2_eq_ppp_plane (x : Nat) (hx : x < 2 ^ 64) :
    clmul_low64 x (2 ^ 64 - 2) = ppp_plane x := by
  apply Nat.eq_of_testBit_eq
  intro b
  rcases Nat.lt_or_ge b 64 with hb | hb
  · show (clmulAux x (2 ^ 64 - 2) 64 % 2 ^ 64).testBit b = _
    rw [Nat.testBit_mod_two_pow, clmulAux_neg2_window x 64 (by norm_num) (by norm_num) b,
      ppp_plane_testBit x hx hb]
    have he : b + 1 - 64 = 0 := by omega
    have hp0 : parBelow x 0 = false := rfl
    rw [he, hp0, Bool.xor_false]
    simp [hb]
  · have hlt : clmul_low64 x (2 ^ 64 - 2) < 2 ^ 64 := by
      unfold clmul_low64
      exact Nat.mod_lt _ (by norm_num)
    rw [testBit_false_of_lt hlt hb, testBit_false_of_lt (ppp_plane_lt x) hb]

lemma pppCarryClmul_eq {mask : Nat} (hm : mask < 2 ^ 64) :
    ∀ i, pppCarryClmul (comp64 mask) i = pppCarry (comp64 mask) i := by
  intro i
  induction i with
  | zero => rfl
  | succ i ih =>
    show pppCarryClmul (comp64 mask) i &&&
        clmul_low64 (pppCarryClmul (comp64 mask) i) (2 ^ 64 - 2) = _
    rw [ih, clmul_neg2_eq_ppp_plane _ (pppCarry_lt (comp64_lt hm) i)]
    rfl

/-- C7: the two prefix-XOR implementations are equivalent: the low 64
bits of the carry-less product of `x` with the bit pattern of `-2` equal
`prefix_sum x <<< 1` reduced to 64 bits, and consequently the CLMUL and
non-CLMUL builds of `zp7_ppp_64` return identical PPP structures. -/
theorem clmul_prefix_sum_equiv (x mask : Nat) (hx : x < 2 ^ 64) (hm : mask < 2 ^ 64) :
    clmul_low64 x (2 ^ 64 - 2) = (prefix_sum x <<< 1) % 2 ^ 64 ∧
      zp7_ppp_64_clmul mask = zp7_ppp_64 mask := by
  refine ⟨clmul_neg2_eq_ppp_plane x hx, ?_⟩
  show zp7_masks_64_t.mk mask
      (fun i => clmul_low64 (pppCarryClmul (comp64 mask) i) (2 ^ 64 - 2)) =
    zp7_masks_64_t.mk mask (fun i => ppp_plane (pppCarry (comp64 mask) i))
  have hfun : (fun i => clmul_low64 (pppCarryClmul (comp64 mask) i) (2 ^ 64 - 2)) =
      (fun i => ppp_plane (pppCarry (comp64 mask) i)) := by
    funext i
    rw [pppCarryClmul_eq hm i, clmul_neg2_eq_ppp_plane _ (pppCarry_lt (comp64_lt hm) i)]
  rw [hfun]

theorem clmul_prefix_sum_equiv_witness :
    (0x123456789ABCDEF0 : Nat) < 2 ^ 64 ∧ (0xF0F0F0F0 : Nat) < 2 ^ 64 ∧
      (clmul_low64 0x123456789ABCDEF0 (2 ^ 64 - 2) =
          (prefix_sum 0x123456789ABCDEF0 <<< 1) % 2 ^ 64 ∧
        zp7_ppp_64_clmul 0xF0F0F0F0 = zp7_ppp_64 0xF0F0F0F0) :=
  ⟨by norm_num, by norm_num,
    clmul_prefix_sum_equiv 0x123456789ABCDEF0 0xF0F0F0F0 (by norm_num) (by norm_num)⟩

end ZP7
